import Mathlib

/-!
Shallow embedding of the cpp-trader-backtester core (memory pool, order
book, tick engine) and verification of the specification claims.

Machine integers of the source (`int64_t` prices/quantities, `uint64_t`
ids/timestamps) are modelled as `Int` and `Nat`; none of the verified
claims exercises wrap-around arithmetic.  Pointers `Order*` into the
arena are modelled as `Nat` indices into an explicit order store, and
pointer mutation as functional update of that store.
-/

set_option maxHeartbeats 1600000

/-- `Side` from include/types.hpp. -/
inductive Side where
  | BUY
  | SELL
deriving DecidableEq, Repr

/-- `OrderType` from include/types.hpp. -/
inductive OrderType where
  | MARKET
  | LIMIT
deriving DecidableEq, Repr

/-- `OrderStatus` from include/types.hpp. -/
inductive OrderStatus where
  | PENDING
  | PARTIAL
  | FILLED
  | CANCELLED
deriving DecidableEq, Repr

/-- `Order` from include/types.hpp (the `alignas(64)` layout attribute has no
behavioural content). -/
structure Order where
  id : Nat
  price : Int
  quantity : Int
  filled : Int
  initial_quantity : Int
  timestamp : Nat
  side : Side
  type : OrderType
  status : OrderStatus
  user_id : Nat
deriving DecidableEq, Repr

instance : Inhabited Order :=
  ⟨⟨0, 0, 0, 0, 0, 0, Side.BUY, OrderType.MARKET, OrderStatus.PENDING, 0⟩⟩

/-- `Order::remaining()` from include/types.hpp. -/
def Order.remaining (o : Order) : Int := o.quantity - o.filled

/-- `Trade` from include/types.hpp. -/
structure Trade where
  buy_order_id : Nat
  sell_order_id : Nat
  price : Int
  quantity : Int
  timestamp : Nat
deriving DecidableEq, Repr

/-- `Tick` from include/types.hpp. -/
structure Tick where
  symbol : String
  price : Int
  volume : Int
  timestamp : Nat
  side : Side
deriving DecidableEq, Repr

/-- The arena contents: slot `i` of the store is the `Order` object at flat
arena position `i`.  An `Order*` is modelled as such an index. -/
abbrev Store := List Order

/-- Dereference an order pointer (index into the store). -/
def getOrder (st : Store) (i : Nat) : Order := List.getD st i default

/-- Write through an order pointer. -/
def setOrder (st : Store) (i : Nat) (o : Order) : Store := List.set st i o

/-- `OrderBook::PriceLevel` from include/order_book.hpp: the FIFO queue
`std::list<Order*> orders` becomes a list of store indices (head = front). -/
structure Level where
  price : Int
  orders : List Nat
  total_quantity : Int
deriving DecidableEq, Repr

/-- An `OrderBook` (include/order_book.hpp).  `bids_` is a `std::map` ordered
descending by price and `asks_` one ordered ascending; both are modelled as
key-sorted association lists in iteration order, so the head of each list is
the map's `begin()`.  The trade callback is modelled by returning the list of
emitted trades from each operation. -/
structure Book where
  bids : List (Int × Level)
  asks : List (Int × Level)
  total_trades : Nat
deriving DecidableEq, Repr

/-- `OrderBook::execute_trade` (src/order_book.cpp): builds the `Trade`
record handed to the callback; `total_trades_` is incremented by the caller
side of the model (one per emitted trade). -/
def execute_trade (buy_order sell_order : Order) (price : Int) (qty : Int) : Trade :=
  ⟨buy_order.id, sell_order.id, price, qty, max buy_order.timestamp sell_order.timestamp⟩

/-- Result of the inner matching loop: updated incoming order, store, the
level's running `total_quantity`, emitted trades, and the level's remaining
FIFO queue. -/
structure MatchLevelRes where
  ord : Order
  store : Store
  tq : Int
  trades : List Trade
  rem : List Nat
deriving DecidableEq, Repr

/-- Result of the outer matching loop: updated incoming order, store,
emitted trades, and the remaining levels of the matched-against side. -/
structure MatchSideRes where
  ord : Order
  store : Store
  trades : List Trade
  levels : List (Int × Level)
deriving DecidableEq, Repr

/-- Result of `match_order`. -/
structure MatchRes where
  ord : Order
  store : Store
  trades : List Trade
  book : Book
deriving DecidableEq, Repr

/-- Result of a public book operation. -/
structure BookOpRes where
  store : Store
  book : Book
  trades : List Trade
deriving DecidableEq, Repr

/-- The inner `while` of `OrderBook::match_order` (src/order_book.cpp):
match the incoming order `o` against the FIFO queue of one price level.
`lp` is `level.price`, `tq` the level's running `total_quantity`, `tr` the
trades emitted so far.

In the source the loop re-tests `order->filled < order->quantity` after a
PARTIAL counter-order; in that branch `trade_qty` equals the incoming
order's remaining quantity, so the re-test is false and the loop exits —
the model returns directly there. -/
def matchLevel (o : Order) (lp : Int) (st : Store) (tq : Int) (tr : List Trade) :
    List Nat → MatchLevelRes
  | [] => ⟨o, st, tq, tr, []⟩
  | ci :: rest =>
    if o.filled < o.quantity then
      let c := getOrder st ci
      let trade_qty := min (o.quantity - o.filled) (c.quantity - c.filled)
      let t := if o.side = Side.BUY then execute_trade o c lp trade_qty
               else execute_trade c o lp trade_qty
      let o' := { o with filled := o.filled + trade_qty }
      let c' := { c with filled := c.filled + trade_qty }
      if c'.quantity ≤ c'.filled then
        matchLevel o' lp (setOrder st ci { c' with status := OrderStatus.FILLED })
          (tq - trade_qty) (tr ++ [t]) rest
      else
        ⟨o', setOrder st ci { c' with status := OrderStatus.PARTIAL },
          tq - trade_qty, tr ++ [t], ci :: rest⟩
    else ⟨o, st, tq, tr, ci :: rest⟩

/-- The LIMIT price-compatibility test of `match_order`: for a BUY the loop
breaks when `order->price < level.price`, for a SELL when
`order->price > level.price`. -/
def priceStops (o : Order) (levelPrice : Int) : Prop :=
  if o.side = Side.BUY then o.price < levelPrice else o.price > levelPrice

instance (o : Order) (p : Int) : Decidable (priceStops o p) := by
  unfold priceStops; split <;> infer_instance

/-- The outer `while` of `OrderBook::match_order`: walk the opposite side's
levels from the best (head) onwards, erasing levels whose queue empties.
When a level's queue survives the inner loop the incoming order is filled,
so the source's loop condition fails and the walk stops keeping that level. -/
def matchSide (o : Order) (st : Store) (tr : List Trade) :
    List (Int × Level) → MatchSideRes
  | [] => ⟨o, st, tr, []⟩
  | (p, lvl) :: rest =>
    if o.filled < o.quantity then
      if o.type = OrderType.LIMIT ∧ priceStops o lvl.price then
        ⟨o, st, tr, (p, lvl) :: rest⟩
      else
        let r := matchLevel o lvl.price st lvl.total_quantity tr lvl.orders
        if r.rem = [] then
          matchSide r.ord r.store r.trades rest
        else
          ⟨r.ord, r.store, r.trades,
            (p, { lvl with orders := r.rem, total_quantity := r.tq }) :: rest⟩
    else ⟨o, st, tr, (p, lvl) :: rest⟩

/-- Final status assignment at the end of `OrderBook::match_order`. -/
def finalStatus (o : Order) : OrderStatus :=
  if o.quantity ≤ o.filled then OrderStatus.FILLED
  else if 0 < o.filled then OrderStatus.PARTIAL
  else OrderStatus.PENDING

/-- `OrderBook::match_order` (src/order_book.cpp): a BUY matches against
`asks_`, a SELL against `bids_`; afterwards the incoming order's status is
set from its fill.  Returns (updated incoming order, store, emitted trades,
updated book). -/
def OrderBook.match_order (o : Order) (st : Store) (b : Book) : MatchRes :=
  if o.side = Side.BUY then
    let r := matchSide o st [] b.asks
    ⟨{ r.ord with status := finalStatus r.ord }, r.store, r.trades,
      { b with asks := r.levels, total_trades := b.total_trades + r.trades.length }⟩
  else
    let r := matchSide o st [] b.bids
    ⟨{ r.ord with status := finalStatus r.ord }, r.store, r.trades,
      { b with bids := r.levels, total_trades := b.total_trades + r.trades.length }⟩

/-- Get-or-create of `bids_[price]` followed by the three statements of
`add_order`'s insertion branch, on a price-descending association list. -/
def insertBid (price : Int) (oi : Nat) (rem : Int) :
    List (Int × Level) → List (Int × Level)
  | [] => [(price, ⟨price, [oi], rem⟩)]
  | (q, lvl) :: rest =>
    if price = q then
      (q, ⟨price, lvl.orders ++ [oi], lvl.total_quantity + rem⟩) :: rest
    else if q < price then
      (price, ⟨price, [oi], rem⟩) :: (q, lvl) :: rest
    else
      (q, lvl) :: insertBid price oi rem rest

/-- Get-or-create of `asks_[price]` followed by the insertion statements, on
a price-ascending association list. -/
def insertAsk (price : Int) (oi : Nat) (rem : Int) :
    List (Int × Level) → List (Int × Level)
  | [] => [(price, ⟨price, [oi], rem⟩)]
  | (q, lvl) :: rest =>
    if price = q then
      (q, ⟨price, lvl.orders ++ [oi], lvl.total_quantity + rem⟩) :: rest
    else if price < q then
      (price, ⟨price, [oi], rem⟩) :: (q, lvl) :: rest
    else
      (q, lvl) :: insertAsk price oi rem rest

/-- `OrderBook::process_market_order` (src/order_book.cpp): match, then a
not-fully-filled market order is CANCELLED. -/
def OrderBook.process_market_order (oi : Nat) (st : Store) (b : Book) :
    BookOpRes :=
  let o := getOrder st oi
  let r := OrderBook.match_order o st b
  let o' := if r.ord.status ≠ OrderStatus.FILLED then
              { r.ord with status := OrderStatus.CANCELLED }
            else r.ord
  ⟨setOrder r.store oi o', r.book, r.trades⟩

/-- `OrderBook::add_order` (src/order_book.cpp).  `oi` is the pointer to the
incoming order (a store index); the C++ mutation of `*order` is modelled by
writing the final order value back into the store (valid because the
incoming slot is not referenced by any level, per the book's contract). -/
def OrderBook.add_order (oi : Nat) (st : Store) (b : Book) : BookOpRes :=
  let o := getOrder st oi
  if o.type = OrderType.MARKET then
    OrderBook.process_market_order oi st b
  else
    let r := OrderBook.match_order o st b
    let o' := r.ord
    let b' := r.book
    let b'' :=
      if o'.status ≠ OrderStatus.FILLED then
        if o'.side = Side.BUY then
          { b' with bids := insertBid o'.price oi (o'.quantity - o'.filled) b'.bids }
        else
          { b' with asks := insertAsk o'.price oi (o'.quantity - o'.filled) b'.asks }
      else b'
    ⟨setOrder r.store oi o', b'', r.trades⟩

/-- `OrderBook::cancel_order` (src/order_book.cpp): the body is empty. -/
def OrderBook.cancel_order (_order_id : Nat) (st : Store) (b : Book) : BookOpRes :=
  ⟨st, b, []⟩

/-- `OrderBook::best_bid` (include/order_book.hpp):
`bids_.empty() ? 0 : bids_.rbegin()->first` — the LAST key in the
descending iteration order of `bids_`. -/
def OrderBook.best_bid (b : Book) : Int :=
  match b.bids.getLast? with
  | none => 0
  | some pl => pl.1

/-- `OrderBook::best_ask` (include/order_book.hpp):
`asks_.empty() ? 0 : asks_.begin()->first`. -/
def OrderBook.best_ask (b : Book) : Int :=
  match b.asks.head? with
  | none => 0
  | some pl => pl.1

/-- `OrderBook::bid_volume` (src/order_book.cpp). -/
def OrderBook.bid_volume (b : Book) : Int :=
  (b.bids.map (fun pl => pl.2.total_quantity)).sum

/-- `OrderBook::ask_volume` (src/order_book.cpp). -/
def OrderBook.ask_volume (b : Book) : Int :=
  (b.asks.map (fun pl => pl.2.total_quantity)).sum

/-- An empty book, as constructed by `OrderBook::OrderBook`. -/
def Book.empty : Book := ⟨[], [], 0⟩

/-- State of `MemoryPool<T, BlockSize>` (include/memory_pool.hpp): the number
of blocks in `blocks_`, and the cursors `current_block_` / `current_index_`.
Block contents live in the engine's order store; a slot is the pair
(block, index). -/
structure PoolState where
  blocks : Nat
  current_block : Nat
  current_index : Nat
deriving DecidableEq, Repr

/-- `MemoryPool::allocate_block`: pushes a fresh block only when
`current_block_ >= blocks_.size()`, then points the cursors at the last
existing block. -/
def MemoryPool.allocate_block (s : PoolState) : PoolState :=
  let blocks' := if s.blocks ≤ s.current_block then s.blocks + 1 else s.blocks
  ⟨blocks', blocks' - 1, 0⟩

/-- The `MemoryPool` constructor: zero cursors, then one `allocate_block`. -/
def MemoryPool.init : PoolState := MemoryPool.allocate_block ⟨0, 0, 0⟩

/-- `MemoryPool::allocate` with block capacity `bs`: refill when the index
reaches `bs`, return the slot under the cursor and advance the index. -/
def MemoryPool.allocate (bs : Nat) (s : PoolState) : PoolState × (Nat × Nat) :=
  let s1 := if bs ≤ s.current_index then MemoryPool.allocate_block s else s
  (⟨s1.blocks, s1.current_block, s1.current_index + 1⟩,
    (s1.current_block, s1.current_index))

/-- `MemoryPool::reset`. -/
def MemoryPool.reset (s : PoolState) : PoolState := ⟨s.blocks, 0, 0⟩

/-- `MemoryPool::allocated_count`. -/
def MemoryPool.allocated_count (bs : Nat) (s : PoolState) : Nat :=
  s.current_block * bs + s.current_index

/-- Pool state after `n` consecutive `allocate()` calls on a fresh pool. -/
def MemoryPool.allocN (bs : Nat) : Nat → PoolState
  | 0 => MemoryPool.init
  | n + 1 => (MemoryPool.allocate bs (MemoryPool.allocN bs n)).1

/-- The slot returned by the `k`-th `allocate()` call (1-indexed) on a fresh
pool. -/
def MemoryPool.slotOfCall (bs k : Nat) : Nat × Nat :=
  (MemoryPool.allocate bs (MemoryPool.allocN bs (k - 1))).2

/-- The default `BlockSize` template argument, used by the engine's
`MemoryPool<Order>`. -/
def BlockSizeDefault : Nat := 4096

/-- A deterministic strategy, abstracted to the engine-visible content of
`Strategy::on_tick`: the order templates it submits on the current tick, as
a function of the tick history up to and including that tick.  (A stateful
deterministic strategy is a special case, its state being a function of the
history; `on_trade` of the bundled strategies submits nothing.) -/
def Strategy := List Tick → List Order

/-- `TickEngine` state (include/tick_engine.hpp).  `order_books_` is a
`std::unordered_map`; its iteration order is unspecified but fixed for a
given construction history, modelled here as insertion order with
`begin()` = head.  `store` holds the contents of `order_pool_`'s blocks as
one flat list (slot `(b, i)` at position `b * BlockSize + i`); `trade_log`
is the sequence of trades observed by `TickEngine::on_trade`. -/
structure TickEngine where
  books : List (String × Book)
  store : Store
  pool : PoolState
  next_order_id : Nat
  current_time : Nat
  ticks_processed : Nat
  orders_submitted : Nat
  trades_executed : Nat
  total_latency_ns : Nat
  trade_log : List Trade

/-- A freshly constructed engine. -/
def TickEngine.init : TickEngine :=
  ⟨[], [], MemoryPool.init, 1, 0, 0, 0, 0, 0, []⟩

/-- Writing an order into an arena slot: inside the already-materialised
store it overwrites, at the frontier it extends. -/
def writeSlot (st : Store) (i : Nat) (o : Order) : Store :=
  if i < st.length then List.set st i o else st ++ [o]

/-- `TickEngine::submit_order` (src/tick_engine.cpp): allocate from the
pool, copy the template, stamp id and timestamp, then — only if some book
exists — hand the order to `order_books_.begin()->second` and count it. -/
def TickEngine.submit_order (tmpl : Order) (e : TickEngine) : TickEngine :=
  let r := MemoryPool.allocate BlockSizeDefault e.pool
  let flat := r.2.1 * BlockSizeDefault + r.2.2
  let o := { tmpl with id := e.next_order_id, timestamp := e.current_time }
  let st1 := writeSlot e.store flat o
  match e.books with
  | [] =>
    { e with pool := r.1, store := st1, next_order_id := e.next_order_id + 1 }
  | (sym, b) :: rest =>
    let a := OrderBook.add_order flat st1 b
    { e with
      pool := r.1
      store := a.store
      next_order_id := e.next_order_id + 1
      books := (sym, a.book) :: rest
      orders_submitted := e.orders_submitted + 1
      trades_executed := e.trades_executed + a.trades.length
      trade_log := e.trade_log ++ a.trades }

/-- `TickEngine::process_tick` (src/tick_engine.cpp).  `hist` is the list of
previously processed ticks (the strategies' observation), `lat` the latency
measured by the monotonic clock for this tick — an external input. -/
def TickEngine.process_tick (strats : List Strategy) (hist : List Tick)
    (t : Tick) (lat : Nat) (e : TickEngine) : TickEngine :=
  let e1 := { e with current_time := t.timestamp }
  let e2 :=
    if (e1.books.lookup t.symbol).isSome then e1
    else { e1 with books := e1.books ++ [(t.symbol, Book.empty)] }
  let e3 := strats.foldl
    (fun acc strat =>
      (strat (hist ++ [t])).foldl (fun a tmpl => TickEngine.submit_order tmpl a) acc)
    e2
  { e3 with
    ticks_processed := e3.ticks_processed + 1
    total_latency_ns := e3.total_latency_ns + lat }

/-- `TickEngine::run_backtest`: process the ticks in order.  `clock` is the
stream of per-tick latencies read from the monotonic clock. -/
def TickEngine.run_backtest (strats : List Strategy) :
    List Tick → List Nat → List Tick → TickEngine → TickEngine
  | [], _, _, e => e
  | t :: ts, clock, hist, e =>
    TickEngine.run_backtest strats ts clock.tail (hist ++ [t])
      (TickEngine.process_tick strats hist t (clock.headD 0) e)

/-- A full backtest on a freshly constructed engine. -/
def TickEngine.run (strats : List Strategy) (ticks : List Tick)
    (clock : List Nat) : TickEngine :=
  TickEngine.run_backtest strats ticks clock [] TickEngine.init

/-- `TickEngine::get_stats`: the four counter fields of `Stats`
(`avg_latency_us` is derived from them). -/
def TickEngine.get_stats (e : TickEngine) : Nat × Nat × Nat × Nat :=
  (e.ticks_processed, e.orders_submitted, e.trades_executed, e.total_latency_ns)

/-! ### Invariants and specification predicates -/

/-- Sum of residual (unfilled) quantities over a FIFO queue of store
indices: the quantity `level.total_quantity` is supposed to track. -/
def sumResid (st : Store) (l : List Nat) : Int :=
  (l.map (fun i => (getOrder st i).remaining)).sum

/-- All order indices referenced by a side's levels, in book order. -/
def allIdx (levels : List (Int × Level)) : List Nat :=
  (levels.map (fun pl => pl.2.orders)).flatten

/-- All order indices referenced anywhere in the book. -/
def bookIdx (b : Book) : List Nat :=
  allIdx b.bids ++ allIdx b.asks

/-- Per-level well-formedness of one book side (spec §3 "Price Level" and
§8): the stored price mirrors the map key, the queue is non-empty, the
cached `total_quantity` is the sum of the residuals of the queued orders,
and every queued index points into the store. -/
def LevelsOK (st : Store) (levels : List (Int × Level)) : Prop :=
  ∀ pl ∈ levels,
    pl.2.price = pl.1 ∧ pl.2.orders ≠ [] ∧
    pl.2.total_quantity = sumResid st pl.2.orders ∧
    ∀ i ∈ pl.2.orders, i < st.length

/-- `bids_` iterates strictly descending by price. -/
def SortedDesc (levels : List (Int × Level)) : Prop :=
  levels.Pairwise (fun a b => b.1 < a.1)

/-- `asks_` iterates strictly ascending by price. -/
def SortedAsc (levels : List (Int × Level)) : Prop :=
  levels.Pairwise (fun a b => a.1 < b.1)

/-- The book invariant of spec §8: well-formed sorted sides, every resting
bid priced strictly below every resting ask (hence best bid < best ask
whenever both sides are non-empty), and no order referenced by two queue
positions. -/
def BookInv (st : Store) (b : Book) : Prop :=
  LevelsOK st b.bids ∧ LevelsOK st b.asks ∧
  SortedDesc b.bids ∧ SortedAsc b.asks ∧
  (∀ pb ∈ b.bids, ∀ pa ∈ b.asks, pb.1 < pa.1) ∧
  (bookIdx b).Nodup

/-- Status/fill consistency of one order, per spec §3 (CANCELLED arises
only from a MARKET order that could not be fully filled; `cancel_order` is
a no-op in this code base). -/
def StatusConsistent (o : Order) : Prop :=
  (o.status = OrderStatus.FILLED ↔ o.filled = o.quantity) ∧
  (o.status = OrderStatus.PARTIAL → 0 < o.filled ∧ o.filled < o.quantity) ∧
  (o.status = OrderStatus.PENDING → o.filled = 0) ∧
  (o.status = OrderStatus.CANCELLED →
    o.type = OrderType.MARKET ∧ o.filled < o.quantity)

/-- Order-record invariant of spec §3/§8. -/
def OrderOK (o : Order) : Prop :=
  0 ≤ o.filled ∧ o.filled ≤ o.quantity ∧ StatusConsistent o

/-- Every order record in the arena satisfies the order invariant. -/
def StoreOK (st : Store) : Prop :=
  ∀ o ∈ st, OrderOK o

/-- The shape claim C7 asserts of every emitted trade, relative to the
incoming order `o` and the pre-call book side `levels` it matched against:
the trade prints at the maker level's price key, its timestamp is the max
of the two participants' timestamps, and the BUY/SELL ids are assigned by
side. -/
def TradeWitness (o : Order) (st : Store) (levels : List (Int × Level))
    (t : Trade) : Prop :=
  ∃ pl ∈ levels, ∃ ci ∈ pl.2.orders,
    t.price = pl.1 ∧
    t.timestamp = max o.timestamp (getOrder st ci).timestamp ∧
    (o.side = Side.BUY →
      t.buy_order_id = o.id ∧ t.sell_order_id = (getOrder st ci).id) ∧
    (o.side = Side.SELL →
      t.sell_order_id = o.id ∧ t.buy_order_id = (getOrder st ci).id)

instance (o : Order) : Decidable (StatusConsistent o) := by
  unfold StatusConsistent; infer_instance

instance (o : Order) : Decidable (OrderOK o) := by
  unfold OrderOK; infer_instance

instance (st : Store) : Decidable (StoreOK st) := by
  unfold StoreOK; exact List.decidableBAll _ _

instance (st : Store) (l : List (Int × Level)) : Decidable (LevelsOK st l) := by
  unfold LevelsOK; exact List.decidableBAll _ _

instance (l : List (Int × Level)) : Decidable (SortedDesc l) := by
  unfold SortedDesc; exact List.instDecidablePairwise _

instance (l : List (Int × Level)) : Decidable (SortedAsc l) := by
  unfold SortedAsc; exact List.instDecidablePairwise _

instance (st : Store) (b : Book) : Decidable (BookInv st b) := by
  unfold BookInv; infer_instance

instance (o : Order) (st : Store) (levels : List (Int × Level)) (t : Trade) :
    Decidable (TradeWitness o st levels t) := by
  unfold TradeWitness; infer_instance

/-! ### Concrete inputs for the spec's scenarios and the counterexamples -/

/-- The `Order(id, price, qty, ts, side, type, user)` constructor of
include/types.hpp: `filled = 0`, `initial_quantity = qty`,
`status = PENDING`. -/
def Order.make (id : Nat) (price qty : Int) (ts : Nat) (s : Side)
    (ty : OrderType) (uid : Nat) : Order :=
  ⟨id, price, qty, 0, qty, ts, s, ty, OrderStatus.PENDING, uid⟩

/-- Spec §8 scenario 3 (claim C9): three resting SELLs at one price, then a
MARKET BUY of 250. -/
def c9Store : Store :=
  [Order.make 1 1000000 100 1000 Side.SELL OrderType.LIMIT 1,
   Order.make 2 1000000 100 2000 Side.SELL OrderType.LIMIT 2,
   Order.make 3 1000000 100 3000 Side.SELL OrderType.LIMIT 3,
   Order.make 4 0 250 4000 Side.BUY OrderType.MARKET 4]

/-- C9 scenario after inserting the three SELL limit orders. -/
def c9Rest : BookOpRes :=
  let s1 := OrderBook.add_order 0 c9Store Book.empty
  let s2 := OrderBook.add_order 1 s1.store s1.book
  OrderBook.add_order 2 s2.store s2.book

/-- C9 scenario after the MARKET BUY. -/
def c9Final : BookOpRes :=
  OrderBook.add_order 3 c9Rest.store c9Rest.book

/-- Two resting LIMIT BUYs at different prices (claim C3's failing input). -/
def c3Store : Store :=
  [Order.make 1 1000000 10 1000 Side.BUY OrderType.LIMIT 1,
   Order.make 2 2000000 10 2000 Side.BUY OrderType.LIMIT 1]

/-- The book holding the two bids of `c3Store`. -/
def c3Book : Book :=
  let s1 := OrderBook.add_order 0 c3Store Book.empty
  (OrderBook.add_order 1 s1.store s1.book).book

/-- An order template as a strategy would populate it (id and timestamp are
engine-overwritten). -/
def c2Template : Order :=
  Order.make 0 1000000 10 0 Side.BUY OrderType.LIMIT 7

/-- An engine that has processed one tick for symbol "A" (so one book
exists), used to witness the amended claim C2. -/
def c2Engine : TickEngine :=
  { TickEngine.init with books := [("A", Book.empty)] }

/-- A MARKET BUY order against an empty book (claim C8's boundary case). -/
def c8Store : Store :=
  [Order.make 1 0 10 1000 Side.BUY OrderType.MARKET 1]

/-- A single market tick (claim C4's counterexample input). -/
def c4Tick : Tick :=
  ⟨"AAPL", 1000000, 10, 42, Side.BUY⟩

/-- Equality of two engine states on everything except the clock-derived
`total_latency_ns` field: the relation underlying claim C4's determinism
statement. -/
def EqExceptLat (e1 e2 : TickEngine) : Prop :=
  e1.books = e2.books ∧ e1.store = e2.store ∧ e1.pool = e2.pool ∧
  e1.next_order_id = e2.next_order_id ∧ e1.current_time = e2.current_time ∧
  e1.ticks_processed = e2.ticks_processed ∧
  e1.orders_submitted = e2.orders_submitted ∧
  e1.trades_executed = e2.trades_executed ∧ e1.trade_log = e2.trade_log

/-! ### Store helper lemmas -/

theorem getOrder_set_self (st : Store) (i : Nat) (o : Order) (h : i < st.length) :
    getOrder (setOrder st i o) i = o := by
  simp [getOrder, setOrder, List.getD, List.getElem?_set_self, h]

theorem getOrder_set_ne (st : Store) (i j : Nat) (o : Order) (h : i ≠ j) :
    getOrder (setOrder st i o) j = getOrder st j := by
  simp [getOrder, setOrder, List.getD, List.getElem?_set_ne h]

theorem setOrder_length (st : Store) (i : Nat) (o : Order) :
    (setOrder st i o).length = st.length := by
  simp [setOrder]

/-! ### Memory pool lemmas (claim C1) -/

theorem MemoryPool.allocN_of_le (bs : Nat) :
    ∀ k, k ≤ bs → MemoryPool.allocN bs k = ⟨1, 0, k⟩
  | 0, _ => rfl
  | k + 1, hk => by
    have hn : k ≤ bs := Nat.le_of_succ_le hk
    have hlt : ¬ bs ≤ k := Nat.not_le.mpr hk
    simp [MemoryPool.allocN, MemoryPool.allocN_of_le bs k hn, MemoryPool.allocate, hlt]

/-- Claim C1 (code bug): with the default block size 4096, the 4097th
`allocate()` call does not open a fresh block: `allocate_block` finds
`current_block_ < blocks_.size()` and rewinds to the existing block, so
the call returns the very slot handed out by the 1st call (invalidating
the reference returned there), and `allocated_count()` reports 1 instead
of 4097. -/
theorem c1_memory_pool_reuses_block_after_first_fill :
    MemoryPool.slotOfCall 4096 4097 = MemoryPool.slotOfCall 4096 1 ∧
    MemoryPool.slotOfCall 4096 4097 = (0, 0) ∧
    MemoryPool.allocated_count 4096 (MemoryPool.allocN 4096 4097) = 1 ∧
    (MemoryPool.allocN 4096 4097).blocks = 1 := by
  have h := MemoryPool.allocN_of_le 4096 4096 (Nat.le_refl 4096)
  have hstep : MemoryPool.allocN 4096 4097 =
      (MemoryPool.allocate 4096 (MemoryPool.allocN 4096 4096)).1 := rfl
  have h1 : MemoryPool.allocN 4096 4097 = ⟨1, 0, 1⟩ := by
    rw [hstep, h]; decide
  have hslot : MemoryPool.slotOfCall 4096 4097 =
      (MemoryPool.allocate 4096 (MemoryPool.allocN 4096 4096)).2 := rfl
  have h2 : MemoryPool.slotOfCall 4096 4097 = (0, 0) := by
    rw [hslot, h]; decide
  refine ⟨?_, h2, ?_, ?_⟩
  · rw [h2]; decide
  · rw [MemoryPool.allocated_count, h1]; decide
  · rw [h1]

/-- Claim C9: FIFO price-time priority at one level.  Three resting SELLs
at price 1000000 (timestamps 1000/2000/3000, quantities 100), then a
MARKET BUY of 250: exactly three trades of quantities (100, 100, 50),
matched oldest first, and the third SELL (timestamp 3000) rests with
`filled = 50` and status PARTIAL. -/
theorem c9_fifo_price_time_priority :
    c9Final.trades.map Trade.quantity = [100, 100, 50] ∧
    c9Final.trades.map Trade.sell_order_id = [1, 2, 3] ∧
    c9Final.trades.map Trade.buy_order_id = [4, 4, 4] ∧
    (getOrder c9Final.store 2).timestamp = 3000 ∧
    (getOrder c9Final.store 2).filled = 50 ∧
    (getOrder c9Final.store 2).status = OrderStatus.PARTIAL ∧
    c9Final.book.asks = [(1000000, ⟨1000000, [2], 50⟩)] := by
  decide

/-- Claim C3 (code bug): `best_bid()` reads `bids_.rbegin()` — the LAST
entry of the price-DESCENDING bid map — so with bids resting at 2000000
and 1000000 it returns the lowest price 1000000, not the best (highest)
2000000.  `best_ask()` is unaffected (here 0: no asks). -/
theorem c3_best_bid_returns_lowest_resting_bid :
    c3Book.bids.map Prod.fst = [2000000, 1000000] ∧
    OrderBook.best_bid c3Book = 1000000 ∧
    OrderBook.best_ask c3Book = 0 := by
  decide

/-- Claim C4, counterexample: the `total_latency_ns` field of `Stats` is
read from the host's monotonic clock, not from the tick stream, so two
fresh engines processing the identical one-tick stream with different
measured latencies report different Stats records. -/
theorem c4_stats_differ_across_identical_runs :
    TickEngine.get_stats (TickEngine.run [] [c4Tick] [0]) ≠
    TickEngine.get_stats (TickEngine.run [] [c4Tick] [5]) := by
  decide

/-- Claim C2, counterexample: a `submit_order` call on an engine whose book
map is empty does not increment `orders_submitted` (yet it consumes an
order id), refuting "for every call … increments orders_submitted by
one". -/
theorem c2_submit_without_book_not_counted :
    (TickEngine.submit_order c2Template TickEngine.init).orders_submitted = 0 ∧
    (TickEngine.submit_order c2Template TickEngine.init).next_order_id = 2 := by
  decide

/-! ### Inner-loop (matchLevel) lemmas -/

theorem sumResid_cons (st : Store) (i : Nat) (l : List Nat) :
    sumResid st (i :: l) = (getOrder st i).remaining + sumResid st l := by
  simp [sumResid]

theorem sumResid_set_notMem (st : Store) (i : Nat) (o : Order) (l : List Nat)
    (h : i ∉ l) : sumResid (setOrder st i o) l = sumResid st l := by
  induction l with
  | nil => rfl
  | cons j rest ih =>
    have hij : i ≠ j := fun he => h (he ▸ List.mem_cons_self j rest)
    have hrest : i ∉ rest := fun hm => h (List.mem_cons_of_mem j hm)
    rw [sumResid_cons, sumResid_cons, getOrder_set_ne st i j o hij, ih hrest]

theorem matchLevel_store_length (lp : Int) :
    ∀ (l : List Nat) (o : Order) (st : Store) (tq : Int) (tr : List Trade),
      (matchLevel o lp st tq tr l).store.length = st.length := by
  intro l
  induction l with
  | nil => intro o st tq tr; rfl
  | cons ci rest ih =>
    intro o st tq tr
    simp only [matchLevel]
    split
    · split
      · rw [ih, setOrder_length]
      · simp [setOrder_length]
    · rfl

theorem matchLevel_frame (lp : Int) :
    ∀ (l : List Nat) (o : Order) (st : Store) (tq : Int) (tr : List Trade)
      (j : Nat), j ∉ l →
      getOrder (matchLevel o lp st tq tr l).store j = getOrder st j := by
  intro l
  induction l with
  | nil => intro o st tq tr j _; rfl
  | cons ci rest ih =>
    intro o st tq tr j hj
    have hji : ci ≠ j := fun he => hj (he ▸ List.mem_cons_self ci rest)
    have hjrest : j ∉ rest := fun hm => hj (List.mem_cons_of_mem ci hm)
    simp only [matchLevel]
    split
    · split
      · rw [ih _ _ _ _ j hjrest, getOrder_set_ne _ _ _ _ hji]
      · simp only []
        rw [getOrder_set_ne _ _ _ _ hji]
    · rfl

theorem matchLevel_idts (lp : Int) :
    ∀ (l : List Nat) (o : Order) (st : Store) (tq : Int) (tr : List Trade)
      (j : Nat),
      (getOrder (matchLevel o lp st tq tr l).store j).id = (getOrder st j).id ∧
      (getOrder (matchLevel o lp st tq tr l).store j).timestamp =
        (getOrder st j).timestamp := by
  intro l
  induction l with
  | nil => intro o st tq tr j; exact ⟨rfl, rfl⟩
  | cons ci rest ih =>
    intro o st tq tr j
    simp only [matchLevel]
    split
    · split
      · -- recursive FILLED branch
        rcases ih _ _ _ _ j with ⟨h1, h2⟩
        rw [h1, h2]
        by_cases hji : ci = j
        · subst hji
          by_cases hlen : ci < st.length
          · rw [getOrder_set_self _ _ _ hlen]; exact ⟨rfl, rfl⟩
          · rw [setOrder, List.set_eq_of_length_le (Nat.le_of_not_lt hlen)]
            exact ⟨rfl, rfl⟩
        · rw [getOrder_set_ne _ _ _ _ hji]; exact ⟨rfl, rfl⟩
      · -- PARTIAL branch
        simp only []
        by_cases hji : ci = j
        · subst hji
          by_cases hlen : ci < st.length
          · rw [getOrder_set_self _ _ _ hlen]; exact ⟨rfl, rfl⟩
          · rw [setOrder, List.set_eq_of_length_le (Nat.le_of_not_lt hlen)]
            exact ⟨rfl, rfl⟩
        · rw [getOrder_set_ne _ _ _ _ hji]; exact ⟨rfl, rfl⟩
    · exact ⟨rfl, rfl⟩

theorem getOrder_mem (st : Store) (i : Nat) (h : i < st.length) :
    getOrder st i ∈ st := by
  simp only [getOrder, List.getD, List.get?_eq_getElem?,
    List.getElem?_eq_getElem h, Option.getD_some]
  exact List.getElem_mem h

theorem getOrder_bounds (st : Store) (h : StoreOK st) (i : Nat) :
    0 ≤ (getOrder st i).filled ∧ (getOrder st i).filled ≤ (getOrder st i).quantity := by
  by_cases hlen : i < st.length
  · rcases h _ (getOrder_mem st i hlen) with ⟨h1, h2, _⟩
    exact ⟨h1, h2⟩
  · simp only [getOrder, List.getD, List.get?_eq_getElem?,
      List.getElem?_eq_none (Nat.le_of_not_lt hlen), Option.getD_none]
    exact ⟨le_refl 0, le_refl 0⟩

theorem storeOK_set (st : Store) (i : Nat) (o : Order) (h : StoreOK st)
    (ho : OrderOK o) : StoreOK (setOrder st i o) := by
  intro a ha
  rcases List.mem_or_eq_of_mem_set ha with h' | h'
  · exact h a h'
  · exact h' ▸ ho

theorem getOrder_set_idts (st : Store) (i : Nat) (o : Order)
    (hid : o.id = (getOrder st i).id)
    (hts : o.timestamp = (getOrder st i).timestamp) (j : Nat) :
    (getOrder (setOrder st i o) j).id = (getOrder st j).id ∧
    (getOrder (setOrder st i o) j).timestamp = (getOrder st j).timestamp := by
  by_cases hij : i = j
  · subst hij
    by_cases hlen : i < st.length
    · rw [getOrder_set_self _ _ _ hlen]; exact ⟨hid, hts⟩
    · rw [setOrder, List.set_eq_of_length_le (Nat.le_of_not_lt hlen)]
      exact ⟨rfl, rfl⟩
  · rw [getOrder_set_ne _ _ _ _ hij]; exact ⟨rfl, rfl⟩

theorem matchLevel_rem_drop (lp : Int) :
    ∀ (l : List Nat) (o : Order) (st : Store) (tq : Int) (tr : List Trade),
      ∃ k, (matchLevel o lp st tq tr l).rem = List.drop k l := by
  intro l
  induction l with
  | nil => intro o st tq tr; exact ⟨0, rfl⟩
  | cons ci rest ih =>
    intro o st tq tr
    simp only [matchLevel]
    split
    · split
      · rcases ih _ _ _ _ with ⟨k, hk⟩
        exact ⟨k + 1, hk⟩
      · exact ⟨0, rfl⟩
    · exact ⟨0, rfl⟩

theorem matchLevel_ord_shape (lp : Int) :
    ∀ (l : List Nat) (o : Order) (st : Store) (tq : Int) (tr : List Trade),
      ∃ f, (matchLevel o lp st tq tr l).ord = { o with filled := f } := by
  intro l
  induction l with
  | nil => intro o st tq tr; exact ⟨o.filled, rfl⟩
  | cons ci rest ih =>
    intro o st tq tr
    simp only [matchLevel]
    split
    · split
      · rcases ih _ _ _ _ with ⟨f, hf⟩
        exact ⟨f, by rw [hf]⟩
      · exact ⟨_, rfl⟩
    · exact ⟨o.filled, rfl⟩

theorem matchLevel_stop (lp : Int) :
    ∀ (l : List Nat) (o : Order) (st : Store) (tq : Int) (tr : List Trade),
      (matchLevel o lp st tq tr l).rem ≠ [] →
      (matchLevel o lp st tq tr l).ord.quantity ≤
        (matchLevel o lp st tq tr l).ord.filled := by
  intro l
  induction l with
  | nil => intro o st tq tr h; exact absurd rfl h
  | cons ci rest ih =>
    intro o st tq tr
    simp only [matchLevel]
    split
    · split
      · exact fun h => ih _ _ _ _ h
      · intro _
        rename_i h1 h2
        rcases min_choice (o.quantity - o.filled)
          ((getOrder st ci).quantity - (getOrder st ci).filled) with hm | hm <;>
          simp only [hm] at h2 ⊢ <;> omega
    · intro _
      rename_i h1
      dsimp only
      omega

theorem matchLevel_tq (lp : Int) :
    ∀ (l : List Nat) (o : Order) (st : Store) (tq : Int) (tr : List Trade),
      l.Nodup → (∀ i ∈ l, i < st.length) → tq = sumResid st l →
      (matchLevel o lp st tq tr l).tq =
        sumResid (matchLevel o lp st tq tr l).store (matchLevel o lp st tq tr l).rem := by
  intro l
  induction l with
  | nil =>
    intro o st tq tr _ _ htq
    simpa [matchLevel, sumResid] using htq
  | cons ci rest ih =>
    intro o st tq tr hnd hb htq
    have hci : ci < st.length := hb ci (List.mem_cons_self ci rest)
    have hcirest : ci ∉ rest := (List.nodup_cons.mp hnd).1
    have hndrest : rest.Nodup := (List.nodup_cons.mp hnd).2
    simp only [matchLevel]
    split
    · rename_i h1
      split
      · rename_i h2
        apply ih
        · exact hndrest
        · intro i hi; rw [setOrder_length]; exact hb i (List.mem_cons_of_mem ci hi)
        · rw [sumResid_set_notMem st ci _ rest hcirest]
          rw [sumResid_cons, Order.remaining] at htq
          have hmin : min (o.quantity - o.filled)
              ((getOrder st ci).quantity - (getOrder st ci).filled) ≤
              (getOrder st ci).quantity - (getOrder st ci).filled := min_le_right _ _
          omega
      · rename_i h2
        rw [sumResid_cons, sumResid_set_notMem st ci _ rest hcirest,
          getOrder_set_self st ci _ hci]
        rw [sumResid_cons, Order.remaining] at htq
        dsimp only [Order.remaining]
        omega
    · rename_i h1
      dsimp only
      exact htq

theorem matchLevel_storeOK (lp : Int) :
    ∀ (l : List Nat) (o : Order) (st : Store) (tq : Int) (tr : List Trade),
      StoreOK st → StoreOK (matchLevel o lp st tq tr l).store := by
  intro l
  induction l with
  | nil => intro o st tq tr h; exact h
  | cons ci rest ih =>
    intro o st tq tr h
    rcases getOrder_bounds st h ci with ⟨hb0, hb1⟩
    simp only [matchLevel]
    split
    · rename_i h1
      split
      · rename_i h2
        apply ih
        apply storeOK_set _ _ _ h
        have hmin : min (o.quantity - o.filled)
            ((getOrder st ci).quantity - (getOrder st ci).filled) ≤
            (getOrder st ci).quantity - (getOrder st ci).filled := min_le_right _ _
        simp only [OrderOK, StatusConsistent]
        simp only [reduceCtorEq, true_iff, false_iff, false_implies, true_implies,
          forall_const]
        exact ⟨by omega, by omega, by omega, trivial, trivial, trivial⟩
      · rename_i h2
        apply storeOK_set _ _ _ h
        have hchoice := min_choice (o.quantity - o.filled)
          ((getOrder st ci).quantity - (getOrder st ci).filled)
        simp only [OrderOK, StatusConsistent]
        refine ⟨by rcases hchoice with hm | hm <;> rw [hm] <;> omega,
          by rcases hchoice with hm | hm <;> rw [hm] <;> omega, ?_, ?_, ?_, ?_⟩
        · constructor
          · intro hst; exact absurd hst (by decide)
          · intro hf
            exfalso
            rcases hchoice with hm | hm <;> rw [hm] at hf h2 <;> omega
        · intro _
          rcases hchoice with hm | hm <;> rw [hm] at h2 ⊢ <;>
            exact ⟨by omega, by omega⟩
        · intro hst; exact absurd hst (by decide)
        · intro hst; exact absurd hst (by decide)
    · rename_i h1
      exact h

theorem getOrder_set_fs (st : Store) (i : Nat) (f : Int) (sn : OrderStatus) (j : Nat) :
    (getOrder (setOrder st i
      { getOrder st i with filled := f, status := sn }) j).id = (getOrder st j).id ∧
    (getOrder (setOrder st i
      { getOrder st i with filled := f, status := sn }) j).timestamp =
      (getOrder st j).timestamp := by
  exact getOrder_set_idts st i
    { getOrder st i with filled := f, status := sn } rfl rfl j

theorem matchLevel_trades (lp : Int) :
    ∀ (l : List Nat) (o : Order) (st : Store) (tq : Int) (tr : List Trade),
      ∀ t ∈ (matchLevel o lp st tq tr l).trades,
        t ∈ tr ∨ ∃ ci ∈ l,
          t.price = lp ∧
          t.timestamp = max o.timestamp (getOrder st ci).timestamp ∧
          (o.side = Side.BUY →
            t.buy_order_id = o.id ∧ t.sell_order_id = (getOrder st ci).id) ∧
          (o.side = Side.SELL →
            t.sell_order_id = o.id ∧ t.buy_order_id = (getOrder st ci).id) := by
  intro l
  induction l with
  | nil => intro o st tq tr t ht; exact Or.inl ht
  | cons ci rest ih =>
    intro o st tq tr
    simp only [matchLevel]
    split
    · rename_i h1
      split
      · rename_i h2
        intro t ht
        rcases ih _ _ _ _ t ht with hmem | ⟨ci', hci', hp, hts, hbuy, hsell⟩
        · rcases List.mem_append.mp hmem with hold | hnew
          · exact Or.inl hold
          · have ht' := List.mem_singleton.mp hnew
            right
            refine ⟨ci, List.mem_cons_self _ _, ?_⟩
            subst ht'
            by_cases hs : o.side = Side.BUY
            · rw [if_pos hs]
              exact ⟨rfl, rfl, fun _ => ⟨rfl, rfl⟩,
                fun hx => absurd (hs.symm.trans hx) (by decide)⟩
            · rw [if_neg hs]
              refine ⟨rfl, Nat.max_comm _ _, fun hx => absurd hx hs,
                fun _ => ⟨rfl, rfl⟩⟩
        · right
          rcases getOrder_set_fs st ci
            ((getOrder st ci).filled + min (o.quantity - o.filled)
              ((getOrder st ci).quantity - (getOrder st ci).filled))
            OrderStatus.FILLED ci' with ⟨hid', hts'⟩
          refine ⟨ci', List.mem_cons_of_mem _ hci', hp, ?_, ?_, ?_⟩
          · exact hts.trans (by rw [hts'])
          · intro hs
            exact ⟨(hbuy hs).1, (hbuy hs).2.trans hid'⟩
          · intro hs
            exact ⟨(hsell hs).1, (hsell hs).2.trans hid'⟩
      · rename_i h2
        intro t ht
        rcases List.mem_append.mp ht with hold | hnew
        · exact Or.inl hold
        · have ht' := List.mem_singleton.mp hnew
          right
          refine ⟨ci, List.mem_cons_self _ _, ?_⟩
          subst ht'
          by_cases hs : o.side = Side.BUY
          · rw [if_pos hs]
            exact ⟨rfl, rfl, fun _ => ⟨rfl, rfl⟩,
              fun hx => absurd (hs.symm.trans hx) (by decide)⟩
          · rw [if_neg hs]
            refine ⟨rfl, Nat.max_comm _ _, fun hx => absurd hx hs,
              fun _ => ⟨rfl, rfl⟩⟩
    · rename_i h1
      intro t ht
      exact Or.inl ht

/-! ### Outer-loop (matchSide) lemmas -/

theorem allIdx_cons (p : Int) (lvl : Level) (rest : List (Int × Level)) :
    allIdx ((p, lvl) :: rest) = lvl.orders ++ allIdx rest := by
  simp [allIdx]

theorem sumResid_append (st : Store) (a b : List Nat) :
    sumResid st (a ++ b) = sumResid st a + sumResid st b := by
  simp [sumResid]

theorem sumResid_congr (st st' : Store) (l : List Nat)
    (h : ∀ i ∈ l, getOrder st' i = getOrder st i) :
    sumResid st' l = sumResid st l := by
  unfold sumResid
  congr 1
  exact List.map_congr_left (fun i hi => by rw [h i hi])

theorem matchSide_store_length :
    ∀ (levels : List (Int × Level)) (o : Order) (st : Store) (tr : List Trade),
      (matchSide o st tr levels).store.length = st.length := by
  intro levels
  induction levels with
  | nil => intro o st tr; rfl
  | cons pl rest ih =>
    intro o st tr
    rcases pl with ⟨p, lvl⟩
    simp only [matchSide]
    split
    · split
      · rfl
      · split
        · rw [ih, matchLevel_store_length]
        · exact matchLevel_store_length _ _ _ _ _ _
    · rfl

theorem matchSide_frame :
    ∀ (levels : List (Int × Level)) (o : Order) (st : Store) (tr : List Trade)
      (j : Nat), j ∉ allIdx levels →
      getOrder (matchSide o st tr levels).store j = getOrder st j := by
  intro levels
  induction levels with
  | nil => intro o st tr j _; rfl
  | cons pl rest ih =>
    intro o st tr j hj
    rcases pl with ⟨p, lvl⟩
    rw [allIdx_cons] at hj
    have hjl : j ∉ lvl.orders := fun hm => hj (List.mem_append.mpr (Or.inl hm))
    have hjrest : j ∉ allIdx rest := fun hm => hj (List.mem_append.mpr (Or.inr hm))
    simp only [matchSide]
    split
    · split
      · rfl
      · split
        · rw [ih _ _ _ j hjrest, matchLevel_frame _ _ _ _ _ _ j hjl]
        · exact matchLevel_frame _ _ _ _ _ _ j hjl
    · rfl

theorem matchSide_idts :
    ∀ (levels : List (Int × Level)) (o : Order) (st : Store) (tr : List Trade)
      (j : Nat),
      (getOrder (matchSide o st tr levels).store j).id = (getOrder st j).id ∧
      (getOrder (matchSide o st tr levels).store j).timestamp =
        (getOrder st j).timestamp := by
  intro levels
  induction levels with
  | nil => intro o st tr j; exact ⟨rfl, rfl⟩
  | cons pl rest ih =>
    intro o st tr j
    rcases pl with ⟨p, lvl⟩
    simp only [matchSide]
    split
    · split
      · exact ⟨rfl, rfl⟩
      · split
        · rcases ih _ _ _ j with ⟨h1, h2⟩
          rcases matchLevel_idts lvl.price lvl.orders o st lvl.total_quantity tr j
            with ⟨h3, h4⟩
          exact ⟨h1.trans h3, h2.trans h4⟩
        · exact matchLevel_idts _ _ _ _ _ _ j
    · exact ⟨rfl, rfl⟩

theorem matchSide_ord_shape :
    ∀ (levels : List (Int × Level)) (o : Order) (st : Store) (tr : List Trade),
      ∃ f, (matchSide o st tr levels).ord = { o with filled := f } := by
  intro levels
  induction levels with
  | nil => intro o st tr; exact ⟨o.filled, rfl⟩
  | cons pl rest ih =>
    intro o st tr
    rcases pl with ⟨p, lvl⟩
    simp only [matchSide]
    split
    · split
      · exact ⟨o.filled, rfl⟩
      · split
        · rcases matchLevel_ord_shape lvl.price lvl.orders o st lvl.total_quantity tr
            with ⟨f1, hf1⟩
          rcases ih _ _ _ with ⟨f2, hf2⟩
          exact ⟨f2, by rw [hf2, hf1]⟩
        · rcases matchLevel_ord_shape lvl.price lvl.orders o st lvl.total_quantity tr
            with ⟨f1, hf1⟩
          exact ⟨f1, hf1⟩
    · exact ⟨o.filled, rfl⟩

theorem matchSide_storeOK :
    ∀ (levels : List (Int × Level)) (o : Order) (st : Store) (tr : List Trade),
      StoreOK st → StoreOK (matchSide o st tr levels).store := by
  intro levels
  induction levels with
  | nil => intro o st tr h; exact h
  | cons pl rest ih =>
    intro o st tr h
    rcases pl with ⟨p, lvl⟩
    simp only [matchSide]
    split
    · split
      · exact h
      · split
        · exact ih _ _ _ (matchLevel_storeOK _ _ _ _ _ _ h)
        · exact matchLevel_storeOK _ _ _ _ _ _ h
    · exact h

theorem matchSide_levels :
    ∀ (levels : List (Int × Level)) (o : Order) (st : Store) (tr : List Trade),
      LevelsOK st levels → (allIdx levels).Nodup →
      LevelsOK (matchSide o st tr levels).store (matchSide o st tr levels).levels ∧
      (∃ k, (matchSide o st tr levels).levels.map Prod.fst =
        List.drop k (levels.map Prod.fst)) ∧
      List.Sublist (allIdx (matchSide o st tr levels).levels) (allIdx levels) := by
  intro levels
  induction levels with
  | nil =>
    intro o st tr h _
    exact ⟨h, ⟨0, rfl⟩, List.Sublist.refl _⟩
  | cons pl rest ih =>
    intro o st tr hok hnd
    rcases pl with ⟨p, lvl⟩
    have hhd := hok (p, lvl) (List.mem_cons_self _ _)
    rcases hhd with ⟨hprice, hne, htq, hbound⟩
    rw [allIdx_cons] at hnd
    rcases List.nodup_append.mp hnd with ⟨hndlvl, hndrest, hdisj⟩
    simp only [matchSide]
    split
    · split
      · exact ⟨hok, ⟨0, rfl⟩, List.Sublist.refl _⟩
      · -- the inner loop ran on the head level
        have hlen := matchLevel_store_length lvl.price lvl.orders o st
          lvl.total_quantity tr
        have hframe : ∀ i ∈ allIdx rest,
            getOrder (matchLevel o lvl.price st lvl.total_quantity tr
              lvl.orders).store i = getOrder st i := by
          intro i hi
          exact matchLevel_frame lvl.price lvl.orders o st lvl.total_quantity tr i
            (fun hmem => hdisj hmem hi)
        have hokrest : LevelsOK (matchLevel o lvl.price st lvl.total_quantity tr
            lvl.orders).store rest := by
          intro ql hql
          rcases hok ql (List.mem_cons_of_mem _ hql) with ⟨h1, h2, h3, h4⟩
          refine ⟨h1, h2, ?_, ?_⟩
          · rw [h3]
            exact (sumResid_congr _ _ _ (fun i hi => hframe i
              (by rw [allIdx]
                  exact List.mem_flatten.mpr ⟨ql.2.orders,
                    List.mem_map.mpr ⟨ql, hql, rfl⟩, hi⟩))).symm
          · intro i hi; rw [hlen]; exact h4 i hi
        split
        · -- level exhausted: erased, recurse on the tail
          rcases ih _ _ _ hokrest (by
            have : (allIdx rest).Nodup := hndrest
            exact this) with ⟨ha, ⟨k, hk⟩, hc⟩
          refine ⟨ha, ⟨k + 1, ?_⟩, ?_⟩
          · rw [hk]; rfl
          · rw [allIdx_cons]
            exact hc.trans (List.sublist_append_right _ _)
        · -- level survives: the incoming order is filled, walk stops
          rename_i hrem
          have hsub : (matchLevel o lvl.price st lvl.total_quantity tr
              lvl.orders).rem.Sublist lvl.orders := by
            rcases matchLevel_rem_drop lvl.price lvl.orders o st lvl.total_quantity tr
              with ⟨k, hk⟩
            rw [hk]; exact List.drop_sublist _ _
          refine ⟨?_, ⟨0, rfl⟩, ?_⟩
          · intro ql hql
            rcases List.mem_cons.mp hql with he | hm
            · subst he
              refine ⟨hprice, hrem, ?_, ?_⟩
              · exact matchLevel_tq lvl.price lvl.orders o st lvl.total_quantity tr
                  hndlvl hbound htq
              · intro i hi
                rw [hlen]
                exact hbound i (hsub.mem hi)
            · rcases hokrest ql hm with ⟨h1, h2, h3, h4⟩
              exact ⟨h1, h2, h3, h4⟩
          · rw [allIdx_cons, allIdx_cons]
            exact List.Sublist.append hsub (List.Sublist.refl _)
    · exact ⟨hok, ⟨0, rfl⟩, List.Sublist.refl _⟩

theorem matchSide_stop :
    ∀ (levels : List (Int × Level)) (o : Order) (st : Store) (tr : List Trade)
      (p : Int) (lvl : Level) (rest' : List (Int × Level)),
      (matchSide o st tr levels).ord.filled <
        (matchSide o st tr levels).ord.quantity →
      (matchSide o st tr levels).levels = (p, lvl) :: rest' →
      o.type = OrderType.LIMIT ∧ priceStops o lvl.price := by
  intro levels
  induction levels with
  | nil =>
    intro o st tr p lvl rest' _ heq
    exact absurd heq (by simp [matchSide])
  | cons ql rest ih =>
    intro o st tr p lvl rest'
    rcases ql with ⟨q, l0⟩
    simp only [matchSide]
    split
    · split
      · rename_i h1 h2
        intro _ heq
        injection heq with hpair hrest
        injection hpair with hq hl
        subst hl
        exact h2
      · rename_i h1 h2
        split
        · rename_i h3
          intro hlt heq
          have hres := ih _ _ _ p lvl rest' hlt heq
          rcases matchLevel_ord_shape l0.price l0.orders o st l0.total_quantity tr
            with ⟨f, hf⟩
          rw [hf] at hres
          exact hres
        · rename_i h3
          intro hlt _
          exact absurd hlt (not_lt.mpr
            (matchLevel_stop l0.price l0.orders o st l0.total_quantity tr h3))
    · rename_i h1
      intro hlt _
      exact absurd hlt h1

theorem matchSide_trades :
    ∀ (levels : List (Int × Level)) (o : Order) (st : Store) (tr : List Trade),
      ∀ t ∈ (matchSide o st tr levels).trades,
        t ∈ tr ∨ ∃ pl ∈ levels, ∃ ci ∈ pl.2.orders,
          t.price = pl.2.price ∧
          t.timestamp = max o.timestamp (getOrder st ci).timestamp ∧
          (o.side = Side.BUY →
            t.buy_order_id = o.id ∧ t.sell_order_id = (getOrder st ci).id) ∧
          (o.side = Side.SELL →
            t.sell_order_id = o.id ∧ t.buy_order_id = (getOrder st ci).id) := by
  intro levels
  induction levels with
  | nil => intro o st tr t ht; exact Or.inl ht
  | cons ql rest ih =>
    intro o st tr
    rcases ql with ⟨q, l0⟩
    simp only [matchSide]
    split
    · split
      · intro t ht; exact Or.inl ht
      · split
        · rename_i h1 h2 h3
          intro t ht
          rcases matchLevel_ord_shape l0.price l0.orders o st l0.total_quantity tr
            with ⟨f, hf⟩
          rcases ih _ _ _ t ht with hmem | ⟨pl, hpl, ci, hci, hp, hts, hbuy, hsell⟩
          · -- the trade was emitted while clearing the head level (or earlier)
            rcases matchLevel_trades l0.price l0.orders o st l0.total_quantity tr
              t hmem with hold | ⟨ci, hci, hp, hts, hbuy, hsell⟩
            · exact Or.inl hold
            · exact Or.inr ⟨(q, l0), List.mem_cons_self _ _, ci, hci, hp, hts,
                hbuy, hsell⟩
          · right
            rcases matchLevel_idts l0.price l0.orders o st l0.total_quantity tr ci
              with ⟨hid', hts'⟩
            rw [hf] at hts hbuy hsell
            rw [hts'] at hts
            rw [hid'] at hbuy hsell
            exact ⟨pl, List.mem_cons_of_mem _ hpl, ci, hci, hp, hts, hbuy, hsell⟩
        · rename_i h1 h2 h3
          intro t ht
          rcases matchLevel_trades l0.price l0.orders o st l0.total_quantity tr
            t ht with hold | ⟨ci, hci, hp, hts, hbuy, hsell⟩
          · exact Or.inl hold
          · exact Or.inr ⟨(q, l0), List.mem_cons_self _ _, ci, hci, hp, hts,
              hbuy, hsell⟩
    · intro t ht; exact Or.inl ht

/-! ### Level-insertion lemmas -/

theorem insertBid_levelsOK (st : Store) (p : Int) (oi : Nat) (rem : Int)
    (hoi : oi < st.length) (hrem : (getOrder st oi).remaining = rem) :
    ∀ l, LevelsOK st l → LevelsOK st (insertBid p oi rem l) := by
  intro l
  induction l with
  | nil =>
    intro _ pl hpl
    rcases List.mem_singleton.mp hpl with rfl
    refine ⟨rfl, by simp, ?_, ?_⟩
    · simp [sumResid, hrem]
    · intro i hi
      rcases List.mem_singleton.mp hi with rfl
      exact hoi
  | cons ql rest ih =>
    intro hok
    rcases ql with ⟨q, lvl⟩
    have hhd := hok (q, lvl) (List.mem_cons_self _ _)
    rcases hhd with ⟨hprice, hne, htq, hbound⟩
    have hokrest : LevelsOK st rest := fun pl hpl => hok pl (List.mem_cons_of_mem _ hpl)
    simp only [insertBid]
    split
    · rename_i hpq
      intro pl hpl
      rcases List.mem_cons.mp hpl with he | hm
      · subst he
        refine ⟨hpq, by simp, ?_, ?_⟩
        · rw [sumResid_append, ← htq]
          simp [sumResid, hrem]
        · intro i hi
          rcases List.mem_append.mp hi with h' | h'
          · exact hbound i h'
          · rcases List.mem_singleton.mp h' with rfl
            exact hoi
      · exact hokrest pl hm
    · split
      · rename_i hpq hqp
        intro pl hpl
        rcases List.mem_cons.mp hpl with he | hm
        · subst he
          refine ⟨rfl, by simp, ?_, ?_⟩
          · simp [sumResid, hrem]
          · intro i hi
            rcases List.mem_singleton.mp hi with rfl
            exact hoi
        · exact hok pl hm
      · rename_i hpq hqp
        intro pl hpl
        rcases List.mem_cons.mp hpl with he | hm
        · subst he
          exact ⟨hprice, hne, htq, hbound⟩
        · exact ih hokrest pl hm

theorem insertAsk_levelsOK (st : Store) (p : Int) (oi : Nat) (rem : Int)
    (hoi : oi < st.length) (hrem : (getOrder st oi).remaining = rem) :
    ∀ l, LevelsOK st l → LevelsOK st (insertAsk p oi rem l) := by
  intro l
  induction l with
  | nil =>
    intro _ pl hpl
    rcases List.mem_singleton.mp hpl with rfl
    refine ⟨rfl, by simp, ?_, ?_⟩
    · simp [sumResid, hrem]
    · intro i hi
      rcases List.mem_singleton.mp hi with rfl
      exact hoi
  | cons ql rest ih =>
    intro hok
    rcases ql with ⟨q, lvl⟩
    have hhd := hok (q, lvl) (List.mem_cons_self _ _)
    rcases hhd with ⟨hprice, hne, htq, hbound⟩
    have hokrest : LevelsOK st rest := fun pl hpl => hok pl (List.mem_cons_of_mem _ hpl)
    simp only [insertAsk]
    split
    · rename_i hpq
      intro pl hpl
      rcases List.mem_cons.mp hpl with he | hm
      · subst he
        refine ⟨hpq, by simp, ?_, ?_⟩
        · rw [sumResid_append, ← htq]
          simp [sumResid, hrem]
        · intro i hi
          rcases List.mem_append.mp hi with h' | h'
          · exact hbound i h'
          · rcases List.mem_singleton.mp h' with rfl
            exact hoi
      · exact hokrest pl hm
    · split
      · rename_i hpq hqp
        intro pl hpl
        rcases List.mem_cons.mp hpl with he | hm
        · subst he
          refine ⟨rfl, by simp, ?_, ?_⟩
          · simp [sumResid, hrem]
          · intro i hi
            rcases List.mem_singleton.mp hi with rfl
            exact hoi
        · exact hok pl hm
      · rename_i hpq hqp
        intro pl hpl
        rcases List.mem_cons.mp hpl with he | hm
        · subst he
          exact ⟨hprice, hne, htq, hbound⟩
        · exact ih hokrest pl hm

theorem insertBid_keys (p : Int) (oi : Nat) (rem : Int) :
    ∀ l, ∀ x ∈ insertBid p oi rem l, x.1 = p ∨ x.1 ∈ l.map Prod.fst := by
  intro l
  induction l with
  | nil =>
    intro x hx
    rcases List.mem_singleton.mp hx with rfl
    exact Or.inl rfl
  | cons ql rest ih =>
    rcases ql with ⟨q, lvl⟩
    simp only [insertBid]
    split
    · rename_i hpq
      intro x hx
      rcases List.mem_cons.mp hx with he | hm
      · subst he; right; simp
      · right; simp only [List.map_cons, List.mem_cons]
        exact Or.inr (List.mem_map.mpr ⟨x, hm, rfl⟩)
    · split
      · rename_i hpq hqp
        intro x hx
        rcases List.mem_cons.mp hx with he | hm
        · subst he; exact Or.inl rfl
        · right
          exact List.mem_map.mpr ⟨x, hm, rfl⟩
      · rename_i hpq hqp
        intro x hx
        rcases List.mem_cons.mp hx with he | hm
        · subst he; right; simp
        · rcases ih x hm with h' | h'
          · exact Or.inl h'
          · right; simp only [List.map_cons, List.mem_cons]
            exact Or.inr h'

theorem insertAsk_keys (p : Int) (oi : Nat) (rem : Int) :
    ∀ l, ∀ x ∈ insertAsk p oi rem l, x.1 = p ∨ x.1 ∈ l.map Prod.fst := by
  intro l
  induction l with
  | nil =>
    intro x hx
    rcases List.mem_singleton.mp hx with rfl
    exact Or.inl rfl
  | cons ql rest ih =>
    rcases ql with ⟨q, lvl⟩
    simp only [insertAsk]
    split
    · rename_i hpq
      intro x hx
      rcases List.mem_cons.mp hx with he | hm
      · subst he; right; simp
      · right; simp only [List.map_cons, List.mem_cons]
        exact Or.inr (List.mem_map.mpr ⟨x, hm, rfl⟩)
    · split
      · rename_i hpq hqp
        intro x hx
        rcases List.mem_cons.mp hx with he | hm
        · subst he; exact Or.inl rfl
        · right
          exact List.mem_map.mpr ⟨x, hm, rfl⟩
      · rename_i hpq hqp
        intro x hx
        rcases List.mem_cons.mp hx with he | hm
        · subst he; right; simp
        · rcases ih x hm with h' | h'
          · exact Or.inl h'
          · right; simp only [List.map_cons, List.mem_cons]
            exact Or.inr h'

theorem insertBid_sorted (p : Int) (oi : Nat) (rem : Int) :
    ∀ l, SortedDesc l → SortedDesc (insertBid p oi rem l) := by
  intro l
  induction l with
  | nil => intro _; simp [insertBid, SortedDesc]
  | cons ql rest ih =>
    intro hs
    rcases ql with ⟨q, lvl⟩
    rcases List.pairwise_cons.mp hs with ⟨hhd, hrest⟩
    simp only [insertBid]
    split
    · rename_i hpq
      exact List.pairwise_cons.mpr ⟨fun b hb => hhd b hb, hrest⟩
    · split
      · rename_i hpq hqp
        refine List.pairwise_cons.mpr ⟨?_, hs⟩
        intro b hb
        rcases List.mem_cons.mp hb with he | hm
        · subst he; exact hqp
        · exact lt_trans (hhd b hm) hqp
      · rename_i hpq hqp
        have hplt : p < q := by
          rcases lt_trichotomy p q with h | h | h
          · exact h
          · exact absurd h hpq
          · exact absurd h hqp
        refine List.pairwise_cons.mpr ⟨?_, ih hrest⟩
        intro b hb
        rcases insertBid_keys p oi rem rest b hb with h' | h'
        · rw [h']; exact hplt
        · rcases List.mem_map.mp h' with ⟨x, hx, hxe⟩
          rw [← hxe]
          exact hhd x hx

theorem insertAsk_sorted (p : Int) (oi : Nat) (rem : Int) :
    ∀ l, SortedAsc l → SortedAsc (insertAsk p oi rem l) := by
  intro l
  induction l with
  | nil => intro _; simp [insertAsk, SortedAsc]
  | cons ql rest ih =>
    intro hs
    rcases ql with ⟨q, lvl⟩
    rcases List.pairwise_cons.mp hs with ⟨hhd, hrest⟩
    simp only [insertAsk]
    split
    · rename_i hpq
      exact List.pairwise_cons.mpr ⟨fun b hb => hhd b hb, hrest⟩
    · split
      · rename_i hpq hqp
        refine List.pairwise_cons.mpr ⟨?_, hs⟩
        intro b hb
        rcases List.mem_cons.mp hb with he | hm
        · subst he; exact hqp
        · exact lt_trans hqp (hhd b hm)
      · rename_i hpq hqp
        have hplt : q < p := by
          rcases lt_trichotomy p q with h | h | h
          · exact absurd h hqp
          · exact absurd h hpq
          · exact h
        refine List.pairwise_cons.mpr ⟨?_, ih hrest⟩
        intro b hb
        rcases insertAsk_keys p oi rem rest b hb with h' | h'
        · rw [h']; exact hplt
        · rcases List.mem_map.mp h' with ⟨x, hx, hxe⟩
          rw [← hxe]
          exact hhd x hx

theorem insertBid_allIdx_perm (p : Int) (oi : Nat) (rem : Int) :
    ∀ l, List.Perm (allIdx (insertBid p oi rem l)) (oi :: allIdx l) := by
  intro l
  induction l with
  | nil => simp [insertBid, allIdx]
  | cons ql rest ih =>
    rcases ql with ⟨q, lvl⟩
    simp only [insertBid]
    split
    · rename_i hpq
      rw [allIdx_cons, allIdx_cons]
      simp only []
      rw [List.append_assoc, List.singleton_append]
      exact List.perm_middle
    · split
      · rename_i hpq hqp
        rw [allIdx_cons]
        exact List.Perm.refl _
      · rename_i hpq hqp
        rw [allIdx_cons, allIdx_cons]
        exact List.Perm.trans (List.Perm.append_left _ ih) List.perm_middle

theorem insertAsk_allIdx_perm (p : Int) (oi : Nat) (rem : Int) :
    ∀ l, List.Perm (allIdx (insertAsk p oi rem l)) (oi :: allIdx l) := by
  intro l
  induction l with
  | nil => simp [insertAsk, allIdx]
  | cons ql rest ih =>
    rcases ql with ⟨q, lvl⟩
    simp only [insertAsk]
    split
    · rename_i hpq
      rw [allIdx_cons, allIdx_cons]
      simp only []
      rw [List.append_assoc, List.singleton_append]
      exact List.perm_middle
    · split
      · rename_i hpq hqp
        rw [allIdx_cons]
        exact List.Perm.refl _
      · rename_i hpq hqp
        rw [allIdx_cons, allIdx_cons]
        exact List.Perm.trans (List.Perm.append_left _ ih) List.perm_middle

/-! ### Book-invariant assembly lemmas -/

theorem pairwise_keys_drop {R : Int → Int → Prop}
    (levels levels' : List (Int × Level)) (k : Nat)
    (hk : levels'.map Prod.fst = List.drop k (levels.map Prod.fst))
    (h : levels.Pairwise (fun a b => R a.1 b.1)) :
    levels'.Pairwise (fun a b => R a.1 b.1) := by
  have h1 : (levels.map Prod.fst).Pairwise R := List.pairwise_map.mpr h
  have h2 : (levels'.map Prod.fst).Pairwise R := by
    rw [hk]
    exact List.Pairwise.sublist (List.drop_sublist k _) h1
  exact List.pairwise_map.mp h2

theorem keys_drop_subset (levels levels' : List (Int × Level)) (k : Nat)
    (hk : levels'.map Prod.fst = List.drop k (levels.map Prod.fst)) :
    ∀ pa ∈ levels', pa.1 ∈ levels.map Prod.fst := by
  intro pa hpa
  have h1 : pa.1 ∈ levels'.map Prod.fst := List.mem_map.mpr ⟨pa, hpa, rfl⟩
  rw [hk] at h1
  exact List.drop_subset _ _ h1

theorem levelsOK_set_fresh (st : Store) (l : List (Int × Level)) (oi : Nat)
    (o : Order) (h : LevelsOK st l) (hfresh : oi ∉ allIdx l) :
    LevelsOK (setOrder st oi o) l := by
  intro pl hpl
  rcases h pl hpl with ⟨h1, h2, h3, h4⟩
  have hno : oi ∉ pl.2.orders := by
    intro hmem
    exact hfresh (by
      rw [allIdx]
      exact List.mem_flatten.mpr ⟨pl.2.orders, List.mem_map.mpr ⟨pl, hpl, rfl⟩, hmem⟩)
  refine ⟨h1, h2, ?_, ?_⟩
  · rw [h3, sumResid_set_notMem st oi o _ hno]
  · intro i hi; rw [setOrder_length]; exact h4 i hi

theorem matchSide_inv_asks (o : Order) (st : Store) (b : Book)
    (hInv : BookInv st b) :
    LevelsOK (matchSide o st [] b.asks).store (matchSide o st [] b.asks).levels ∧
    LevelsOK (matchSide o st [] b.asks).store b.bids ∧
    SortedAsc (matchSide o st [] b.asks).levels ∧
    (∀ pb ∈ b.bids, ∀ pa ∈ (matchSide o st [] b.asks).levels, pb.1 < pa.1) ∧
    (allIdx b.bids ++ allIdx (matchSide o st [] b.asks).levels).Nodup ∧
    (matchSide o st [] b.asks).store.length = st.length ∧
    List.Sublist (allIdx (matchSide o st [] b.asks).levels) (allIdx b.asks) := by
  rcases hInv with ⟨hb, ha, hsd, hsa, hcross, hnd⟩
  rcases List.nodup_append.mp hnd with ⟨hndb, hnda, hdisj⟩
  rcases matchSide_levels b.asks o st [] ha hnda with ⟨hOK, ⟨k, hk⟩, hsubl⟩
  refine ⟨hOK, ?_, ?_, ?_, ?_, matchSide_store_length _ _ _ _, hsubl⟩
  · intro pl hpl
    rcases hb pl hpl with ⟨h1, h2, h3, h4⟩
    refine ⟨h1, h2, ?_, ?_⟩
    · rw [h3]
      refine (sumResid_congr _ _ _ (fun i hi => matchSide_frame b.asks o st [] i ?_)).symm
      intro hmem
      exact hdisj (by
        rw [allIdx]
        exact List.mem_flatten.mpr ⟨pl.2.orders, List.mem_map.mpr ⟨pl, hpl, rfl⟩, hi⟩) hmem
    · intro i hi
      rw [matchSide_store_length]
      exact h4 i hi
  · exact pairwise_keys_drop b.asks _ k hk hsa
  · intro pb hpb pa hpa
    rcases List.mem_map.mp (keys_drop_subset b.asks _ k hk pa hpa) with ⟨qa, hqa, hqae⟩
    rw [← hqae]
    exact hcross pb hpb qa hqa
  · refine List.Nodup.sublist ?_ hnd
    exact List.Sublist.append (List.Sublist.refl _) hsubl

theorem matchSide_inv_bids (o : Order) (st : Store) (b : Book)
    (hInv : BookInv st b) :
    LevelsOK (matchSide o st [] b.bids).store (matchSide o st [] b.bids).levels ∧
    LevelsOK (matchSide o st [] b.bids).store b.asks ∧
    SortedDesc (matchSide o st [] b.bids).levels ∧
    (∀ pb ∈ (matchSide o st [] b.bids).levels, ∀ pa ∈ b.asks, pb.1 < pa.1) ∧
    (allIdx (matchSide o st [] b.bids).levels ++ allIdx b.asks).Nodup ∧
    (matchSide o st [] b.bids).store.length = st.length ∧
    List.Sublist (allIdx (matchSide o st [] b.bids).levels) (allIdx b.bids) := by
  rcases hInv with ⟨hb, ha, hsd, hsa, hcross, hnd⟩
  rcases List.nodup_append.mp hnd with ⟨hndb, hnda, hdisj⟩
  rcases matchSide_levels b.bids o st [] hb hndb with ⟨hOK, ⟨k, hk⟩, hsubl⟩
  refine ⟨hOK, ?_, ?_, ?_, ?_, matchSide_store_length _ _ _ _, hsubl⟩
  · intro pl hpl
    rcases ha pl hpl with ⟨h1, h2, h3, h4⟩
    refine ⟨h1, h2, ?_, ?_⟩
    · rw [h3]
      refine (sumResid_congr _ _ _ (fun i hi => matchSide_frame b.bids o st [] i ?_)).symm
      intro hmem
      exact hdisj hmem (by
        rw [allIdx]
        exact List.mem_flatten.mpr ⟨pl.2.orders, List.mem_map.mpr ⟨pl, hpl, rfl⟩, hi⟩)
    · intro i hi
      rw [matchSide_store_length]
      exact h4 i hi
  · exact @pairwise_keys_drop (fun x y => y < x) b.bids _ k hk hsd
  · intro pb hpb pa hpa
    rcases List.mem_map.mp (keys_drop_subset b.bids _ k hk pb hpb) with ⟨qb, hqb, hqbe⟩
    rw [← hqbe]
    exact hcross qb hqb pa hpa
  · refine List.Nodup.sublist ?_ hnd
    exact List.Sublist.append hsubl (List.Sublist.refl _)

theorem match_order_inv (o : Order) (st : Store) (b : Book) (hInv : BookInv st b) :
    BookInv (OrderBook.match_order o st b).store (OrderBook.match_order o st b).book ∧
    (OrderBook.match_order o st b).store.length = st.length ∧
    List.Sublist (bookIdx (OrderBook.match_order o st b).book) (bookIdx b) := by
  unfold OrderBook.match_order
  have hInv' := hInv
  rcases hInv' with ⟨hb, ha, hsd, hsa, hcross, hnd⟩
  by_cases hs : o.side = Side.BUY
  · rw [if_pos hs]
    rcases matchSide_inv_asks o st b hInv with ⟨h1, h2, h3, h4, h5, h6, h7⟩
    exact ⟨⟨h2, h1, hsd, h3, h4, h5⟩, h6,
      List.Sublist.append (List.Sublist.refl _) h7⟩
  · rw [if_neg hs]
    rcases matchSide_inv_bids o st b hInv with ⟨h1, h2, h3, h4, h5, h6, h7⟩
    exact ⟨⟨h1, h2, h3, hsa, h4, h5⟩, h6,
      List.Sublist.append h7 (List.Sublist.refl _)⟩

theorem match_order_ord_shape (o : Order) (st : Store) (b : Book) :
    ∃ f, (OrderBook.match_order o st b).ord =
      { o with filled := f, status := finalStatus { o with filled := f } } := by
  unfold OrderBook.match_order
  by_cases hs : o.side = Side.BUY
  · rw [if_pos hs]
    rcases matchSide_ord_shape b.asks o st [] with ⟨f, hf⟩
    exact ⟨f, by dsimp only; rw [hf]⟩
  · rw [if_neg hs]
    rcases matchSide_ord_shape b.bids o st [] with ⟨f, hf⟩
    exact ⟨f, by dsimp only; rw [hf]⟩

theorem match_order_resid_stop (o : Order) (st : Store) (b : Book)
    (p : Int) (lvl : Level) (rest' : List (Int × Level))
    (hlt : (OrderBook.match_order o st b).ord.filled <
      (OrderBook.match_order o st b).ord.quantity)
    (heq : (if o.side = Side.BUY then (OrderBook.match_order o st b).book.asks
      else (OrderBook.match_order o st b).book.bids) = (p, lvl) :: rest') :
    o.type = OrderType.LIMIT ∧ priceStops o lvl.price := by
  unfold OrderBook.match_order at hlt heq
  by_cases hs : o.side = Side.BUY
  · rw [if_pos hs] at hlt heq
    rw [if_pos hs] at heq
    exact matchSide_stop b.asks o st [] p lvl rest' hlt heq
  · rw [if_neg hs] at hlt heq
    rw [if_neg hs] at heq
    exact matchSide_stop b.bids o st [] p lvl rest' hlt heq

theorem finalStatus_ne_filled (o : Order)
    (h : finalStatus o ≠ OrderStatus.FILLED) : o.filled < o.quantity := by
  unfold finalStatus at h
  by_cases hc : o.quantity ≤ o.filled
  · rw [if_pos hc] at h
    exact absurd rfl h
  · omega

theorem bookInv_set_fresh (st : Store) (b : Book) (oi : Nat) (o : Order)
    (h : BookInv st b) (hfresh : oi ∉ bookIdx b) :
    BookInv (setOrder st oi o) b := by
  rcases h with ⟨hb, ha, hsd, hsa, hcross, hnd⟩
  have hfb : oi ∉ allIdx b.bids := fun hm =>
    hfresh (List.mem_append.mpr (Or.inl hm))
  have hfa : oi ∉ allIdx b.asks := fun hm =>
    hfresh (List.mem_append.mpr (Or.inr hm))
  exact ⟨levelsOK_set_fresh st b.bids oi o hb hfb,
    levelsOK_set_fresh st b.asks oi o ha hfa, hsd, hsa, hcross, hnd⟩

theorem process_market_order_inv (oi : Nat) (st : Store) (b : Book)
    (hInv : BookInv st b) (hfresh : oi ∉ bookIdx b) :
    BookInv (OrderBook.process_market_order oi st b).store
      (OrderBook.process_market_order oi st b).book ∧
    oi ∉ bookIdx (OrderBook.process_market_order oi st b).book := by
  rcases match_order_inv (getOrder st oi) st b hInv with ⟨hI, hlen, hsub⟩
  have hfresh' : oi ∉ bookIdx (OrderBook.match_order (getOrder st oi) st b).book :=
    fun hm => hfresh (hsub.subset hm)
  unfold OrderBook.process_market_order
  exact ⟨bookInv_set_fresh _ _ oi _ hI hfresh', hfresh'⟩

/-- Claim C5: every public `OrderBook` operation (`add_order`,
`process_market_order`, `cancel_order`) preserves the book invariant: each
remaining level's `total_quantity` is the sum of the residuals of its
non-empty FIFO queue (levels that empty are erased), and the book is never
crossed — every resting bid is priced strictly below every resting ask, so
in particular the best bid is below the best ask whenever both sides are
non-empty.  Hypotheses: the incoming order's slot is inside the arena and
not already referenced by a level (the book's ownership contract). -/
theorem c5_book_invariant_preserved (st : Store) (b : Book) (oi order_id : Nat)
    (hInv : BookInv st b) (hoi : oi < st.length) (hfresh : oi ∉ bookIdx b) :
    BookInv (OrderBook.add_order oi st b).store (OrderBook.add_order oi st b).book ∧
    BookInv (OrderBook.process_market_order oi st b).store
      (OrderBook.process_market_order oi st b).book ∧
    BookInv (OrderBook.cancel_order order_id st b).store
      (OrderBook.cancel_order order_id st b).book := by
  refine ⟨?_, (process_market_order_inv oi st b hInv hfresh).1, hInv⟩
  simp only [OrderBook.add_order]
  by_cases hm : (getOrder st oi).type = OrderType.MARKET
  · rw [if_pos hm]
    exact (process_market_order_inv oi st b hInv hfresh).1
  · rw [if_neg hm]
    obtain ⟨hI, hlen, hsub⟩ := match_order_inv (getOrder st oi) st b hInv
    obtain ⟨f, hford⟩ := match_order_ord_shape (getOrder st oi) st b
    have hfresh' : oi ∉ bookIdx (OrderBook.match_order (getOrder st oi) st b).book :=
      fun hm' => hfresh (hsub.subset hm')
    have hIset : BookInv
        (setOrder (OrderBook.match_order (getOrder st oi) st b).store oi
          (OrderBook.match_order (getOrder st oi) st b).ord)
        (OrderBook.match_order (getOrder st oi) st b).book :=
      bookInv_set_fresh _ _ oi _ hI hfresh'
    have hoi' : oi < (OrderBook.match_order (getOrder st oi) st b).store.length := by
      rw [hlen]; exact hoi
    split
    · rename_i hst
      have hflt : f < (getOrder st oi).quantity :=
        finalStatus_ne_filled { getOrder st oi with filled := f }
          (by rw [hford] at hst; exact hst)
      have hlt' : (OrderBook.match_order (getOrder st oi) st b).ord.filled <
          (OrderBook.match_order (getOrder st oi) st b).ord.quantity := by
        rw [hford]; exact hflt
      obtain ⟨hOKb, hOKa, hsd, hsa, hcross, hnd⟩ := hIset
      split
    -- BUY residual: insert into bids
      · rename_i hside
        have hsideo : (getOrder st oi).side = Side.BUY := by
          rw [hford] at hside; exact hside
        have hremeq : (getOrder
            (setOrder (OrderBook.match_order (getOrder st oi) st b).store oi
              (OrderBook.match_order (getOrder st oi) st b).ord) oi).remaining =
            (OrderBook.match_order (getOrder st oi) st b).ord.quantity -
            (OrderBook.match_order (getOrder st oi) st b).ord.filled := by
          rw [getOrder_set_self _ _ _ hoi']; rfl
        refine ⟨?_, hOKa, ?_, hsa, ?_, ?_⟩
        · exact insertBid_levelsOK _ _ _ _ (by rw [setOrder_length]; exact hoi')
            hremeq _ hOKb
        · exact insertBid_sorted _ _ _ _ hsd
        · intro pb hpb pa hpa
          rcases insertBid_keys _ _ _ _ pb hpb with hkey | hkey
          · rw [hkey]
            have hprice : (OrderBook.match_order (getOrder st oi) st b).ord.price =
                (getOrder st oi).price := by rw [hford]
            rw [hprice]
            cases hasks : (OrderBook.match_order (getOrder st oi) st b).book.asks with
            | nil => rw [hasks] at hpa; exact absurd hpa (List.not_mem_nil _)
            | cons hd rest'' =>
              rcases hd with ⟨q, lvl⟩
              obtain ⟨_, hps⟩ := match_order_resid_stop (getOrder st oi) st b
                q lvl rest'' hlt' (by rw [if_pos hsideo]; exact hasks)
              unfold priceStops at hps
              rw [if_pos hsideo] at hps
              have hhd := hOKa (q, lvl) (by rw [hasks]; exact List.mem_cons_self _ _)
              rw [hasks] at hpa
              rcases List.mem_cons.mp hpa with he | hm'
              · subst he
                rw [← hhd.1]
                exact hps
              · have hsa' := hsa
                rw [hasks] at hsa'
                have hqlt := (List.pairwise_cons.mp hsa').1 pa hm'
                have hkey' : lvl.price = q := hhd.1
                have h1 : (getOrder st oi).price < q := by rw [← hkey']; exact hps
                exact lt_trans h1 hqlt
          · rcases List.mem_map.mp hkey with ⟨qb, hqb, hqbe⟩
            rw [← hqbe]
            exact hcross qb hqb pa hpa
        · have hperm := insertBid_allIdx_perm
            (OrderBook.match_order (getOrder st oi) st b).ord.price oi
            ((OrderBook.match_order (getOrder st oi) st b).ord.quantity -
              (OrderBook.match_order (getOrder st oi) st b).ord.filled)
            (OrderBook.match_order (getOrder st oi) st b).book.bids
          simp only [bookIdx]
          apply ((List.Perm.append hperm (List.Perm.refl _)).nodup_iff).mpr
          rw [List.cons_append]
          exact List.nodup_cons.mpr ⟨hfresh', hnd⟩
    -- SELL residual: insert into asks
      · rename_i hside
        have hno : ¬ (getOrder st oi).side = Side.BUY := by
          rw [hford] at hside; exact hside
        have hsideo : (getOrder st oi).side = Side.SELL := by
          cases hS : (getOrder st oi).side
          · exact absurd hS hno
          · rfl
        have hremeq : (getOrder
            (setOrder (OrderBook.match_order (getOrder st oi) st b).store oi
              (OrderBook.match_order (getOrder st oi) st b).ord) oi).remaining =
            (OrderBook.match_order (getOrder st oi) st b).ord.quantity -
            (OrderBook.match_order (getOrder st oi) st b).ord.filled := by
          rw [getOrder_set_self _ _ _ hoi']; rfl
        refine ⟨hOKb, ?_, hsd, ?_, ?_, ?_⟩
        · exact insertAsk_levelsOK _ _ _ _ (by rw [setOrder_length]; exact hoi')
            hremeq _ hOKa
        · exact insertAsk_sorted _ _ _ _ hsa
        · intro pb hpb pa hpa
          rcases insertAsk_keys _ _ _ _ pa hpa with hkey | hkey
          · rw [hkey]
            have hprice : (OrderBook.match_order (getOrder st oi) st b).ord.price =
                (getOrder st oi).price := by rw [hford]
            rw [hprice]
            cases hbids : (OrderBook.match_order (getOrder st oi) st b).book.bids with
            | nil => rw [hbids] at hpb; exact absurd hpb (List.not_mem_nil _)
            | cons hd rest'' =>
              rcases hd with ⟨q, lvl⟩
              have hsI : ¬ (getOrder st oi).side = Side.BUY := hno
              obtain ⟨_, hps⟩ := match_order_resid_stop (getOrder st oi) st b
                q lvl rest'' hlt' (by rw [if_neg hsI]; exact hbids)
              unfold priceStops at hps
              rw [if_neg hsI] at hps
              have hhd := hOKb (q, lvl) (by rw [hbids]; exact List.mem_cons_self _ _)
              rw [hbids] at hpb
              rcases List.mem_cons.mp hpb with he | hm'
              · subst he
                rw [← hhd.1]
                exact hps
              · have hsd' := hsd
                rw [hbids] at hsd'
                have hqlt := (List.pairwise_cons.mp hsd').1 pb hm'
                have hkey' : lvl.price = q := hhd.1
                have h1 : q < (getOrder st oi).price := by rw [← hkey']; exact hps
                exact lt_trans hqlt h1
          · rcases List.mem_map.mp hkey with ⟨qa, hqa, hqae⟩
            rw [← hqae]
            exact hcross pb hpb qa hqa
        · have hperm := insertAsk_allIdx_perm
            (OrderBook.match_order (getOrder st oi) st b).ord.price oi
            ((OrderBook.match_order (getOrder st oi) st b).ord.quantity -
              (OrderBook.match_order (getOrder st oi) st b).ord.filled)
            (OrderBook.match_order (getOrder st oi) st b).book.asks
          simp only [bookIdx]
          apply ((List.Perm.append (List.Perm.refl _) hperm).nodup_iff).mpr
          apply (List.perm_middle.nodup_iff).mpr
          exact List.nodup_cons.mpr ⟨hfresh', hnd⟩
    · rename_i hst
      exact hIset

/-! ### Further matching facts for claims C6, C7, C8 -/

theorem matchSide_allIdx_sublist :
    ∀ (levels : List (Int × Level)) (o : Order) (st : Store) (tr : List Trade),
      List.Sublist (allIdx (matchSide o st tr levels).levels) (allIdx levels) := by
  intro levels
  induction levels with
  | nil => intro o st tr; exact List.Sublist.refl _
  | cons pl rest ih =>
    intro o st tr
    rcases pl with ⟨p, lvl⟩
    simp only [matchSide]
    split
    · split
      · exact List.Sublist.refl _
      · split
        · rw [allIdx_cons]
          exact (ih _ _ _).trans (List.sublist_append_right _ _)
        · rw [allIdx_cons, allIdx_cons]
          refine List.Sublist.append ?_ (List.Sublist.refl _)
          rcases matchLevel_rem_drop lvl.price lvl.orders o st lvl.total_quantity tr
            with ⟨k, hk⟩
          rw [hk]
          exact List.drop_sublist _ _
    · exact List.Sublist.refl _

theorem match_order_store_length (o : Order) (st : Store) (b : Book) :
    (OrderBook.match_order o st b).store.length = st.length := by
  unfold OrderBook.match_order
  by_cases hs : o.side = Side.BUY
  · rw [if_pos hs]; exact matchSide_store_length _ _ _ _
  · rw [if_neg hs]; exact matchSide_store_length _ _ _ _

theorem match_order_bookIdx_sublist (o : Order) (st : Store) (b : Book) :
    List.Sublist (bookIdx (OrderBook.match_order o st b).book) (bookIdx b) := by
  unfold OrderBook.match_order
  by_cases hs : o.side = Side.BUY
  · rw [if_pos hs]
    exact List.Sublist.append (List.Sublist.refl _) (matchSide_allIdx_sublist _ _ _ _)
  · rw [if_neg hs]
    exact List.Sublist.append (matchSide_allIdx_sublist _ _ _ _) (List.Sublist.refl _)

theorem match_order_storeOK (o : Order) (st : Store) (b : Book)
    (h : StoreOK st) : StoreOK (OrderBook.match_order o st b).store := by
  unfold OrderBook.match_order
  by_cases hs : o.side = Side.BUY
  · rw [if_pos hs]; exact matchSide_storeOK _ _ _ _ h
  · rw [if_neg hs]; exact matchSide_storeOK _ _ _ _ h

theorem match_order_trades_mem (o : Order) (st : Store) (b : Book) :
    ∀ t ∈ (OrderBook.match_order o st b).trades,
      t ∈ (matchSide o st ([] : List Trade)
        (if o.side = Side.BUY then b.asks else b.bids)).trades := by
  unfold OrderBook.match_order
  by_cases hs : o.side = Side.BUY
  · rw [if_pos hs, if_pos hs]; exact fun t ht => ht
  · rw [if_neg hs, if_neg hs]; exact fun t ht => ht

theorem finalStatus_filled (o : Order)
    (h : finalStatus o = OrderStatus.FILLED) : o.quantity ≤ o.filled := by
  unfold finalStatus at h
  by_cases hc : o.quantity ≤ o.filled
  · exact hc
  · exfalso
    rw [if_neg hc] at h
    by_cases h2 : 0 < o.filled
    · rw [if_pos h2] at h; exact absurd h (by decide)
    · rw [if_neg h2] at h; exact absurd h (by decide)

theorem orderOK_final (o : Order) (f : Int) (h0 : 0 ≤ f) (h1 : f ≤ o.quantity) :
    OrderOK { o with filled := f, status := finalStatus { o with filled := f } } := by
  unfold OrderOK StatusConsistent finalStatus
  dsimp only
  by_cases hc : o.quantity ≤ f
  · rw [if_pos hc]
    simp only [reduceCtorEq, true_iff, false_implies, forall_const]
    repeat' apply And.intro
    all_goals first | trivial | omega
  · rw [if_neg hc]
    by_cases h2 : 0 < f
    · rw [if_pos h2]
      simp only [reduceCtorEq, false_iff, false_implies, forall_const, true_implies]
      repeat' apply And.intro
      all_goals first | trivial | omega
    · rw [if_neg h2]
      simp only [reduceCtorEq, false_iff, false_implies, forall_const, true_implies]
      repeat' apply And.intro
      all_goals first | trivial | omega

theorem orderOK_cancelled (o : Order) (f : Int) (h0 : 0 ≤ f)
    (h1 : f < o.quantity) (hm : o.type = OrderType.MARKET) :
    OrderOK { o with filled := f, status := OrderStatus.CANCELLED } := by
  unfold OrderOK StatusConsistent
  dsimp only
  simp only [reduceCtorEq, false_iff, false_implies, forall_const, true_implies]
  repeat' apply And.intro
  all_goals first | trivial | omega | exact hm

theorem matchLevel_filled_le (lp : Int) :
    ∀ (l : List Nat) (o : Order) (st : Store) (tq : Int) (tr : List Trade),
      o.filled ≤ o.quantity →
      (matchLevel o lp st tq tr l).ord.filled ≤ o.quantity := by
  intro l
  induction l with
  | nil => intro o st tq tr h; exact h
  | cons ci rest ih =>
    intro o st tq tr h
    simp only [matchLevel]
    split
    · rename_i h1
      have hmin := min_le_left (o.quantity - o.filled)
        ((getOrder st ci).quantity - (getOrder st ci).filled)
      split
      · rename_i h2
        exact ih _ _ _ _ (by dsimp only; omega)
      · dsimp only
        omega
    · exact h

theorem matchLevel_step_storeOK (o : Order) (st : Store) (ci : Nat)
    (h : StoreOK st) (h1 : o.filled < o.quantity)
    (h2 : (getOrder st ci).quantity ≤ (getOrder st ci).filled +
      min (o.quantity - o.filled)
        ((getOrder st ci).quantity - (getOrder st ci).filled)) :
    StoreOK (setOrder st ci { getOrder st ci with
      filled := (getOrder st ci).filled + min (o.quantity - o.filled)
        ((getOrder st ci).quantity - (getOrder st ci).filled),
      status := OrderStatus.FILLED }) := by
  rcases getOrder_bounds st h ci with ⟨hb0, hb1⟩
  apply storeOK_set _ _ _ h
  have hmin : min (o.quantity - o.filled)
      ((getOrder st ci).quantity - (getOrder st ci).filled) ≤
      (getOrder st ci).quantity - (getOrder st ci).filled := min_le_right _ _
  simp only [OrderOK, StatusConsistent]
  simp only [reduceCtorEq, true_iff, false_iff, false_implies, true_implies,
    forall_const]
  repeat' apply And.intro
  all_goals first | trivial | omega

theorem matchLevel_filled_ge (lp : Int) :
    ∀ (l : List Nat) (o : Order) (st : Store) (tq : Int) (tr : List Trade),
      StoreOK st →
      o.filled ≤ (matchLevel o lp st tq tr l).ord.filled := by
  intro l
  induction l with
  | nil => intro o st tq tr _; exact le_refl _
  | cons ci rest ih =>
    intro o st tq tr h
    rcases getOrder_bounds st h ci with ⟨hb0, hb1⟩
    simp only [matchLevel]
    split
    · rename_i h1
      have hge0 : (0 : Int) ≤ min (o.quantity - o.filled)
          ((getOrder st ci).quantity - (getOrder st ci).filled) :=
        le_min (by omega) (by omega)
      split
      · rename_i h2
        refine le_trans ?_ (ih _ _ _ _ (matchLevel_step_storeOK o st ci h h1 h2))
        dsimp only
        omega
      · dsimp only
        omega
    · exact le_refl _

theorem setOrder_oob (st : Store) (i : Nat) (o : Order) (h : st.length ≤ i) :
    setOrder st i o = st :=
  List.set_eq_of_length_le h

theorem matchSide_filled_le :
    ∀ (levels : List (Int × Level)) (o : Order) (st : Store) (tr : List Trade),
      o.filled ≤ o.quantity →
      (matchSide o st tr levels).ord.filled ≤ o.quantity := by
  intro levels
  induction levels with
  | nil => intro o st tr h; exact h
  | cons pl rest ih =>
    intro o st tr h
    rcases pl with ⟨p, lvl⟩
    simp only [matchSide]
    split
    · split
      · exact h
      · split
        · rcases matchLevel_ord_shape lvl.price lvl.orders o st lvl.total_quantity tr
            with ⟨f, hf⟩
          have h1 := matchLevel_filled_le lvl.price lvl.orders o st
            lvl.total_quantity tr h
          have hcond : (matchLevel o lvl.price st lvl.total_quantity
              tr lvl.orders).ord.filled ≤
              (matchLevel o lvl.price st lvl.total_quantity
              tr lvl.orders).ord.quantity := by
            rw [hf]; rw [hf] at h1; exact h1
          have h2 := ih (matchLevel o lvl.price st lvl.total_quantity
            tr lvl.orders).ord (matchLevel o lvl.price st lvl.total_quantity
            tr lvl.orders).store (matchLevel o lvl.price st lvl.total_quantity
            tr lvl.orders).trades hcond
          have hq : (matchLevel o lvl.price st lvl.total_quantity
              tr lvl.orders).ord.quantity = o.quantity := by rw [hf]
          exact le_trans h2 (le_of_eq hq)
        · exact matchLevel_filled_le lvl.price lvl.orders o st lvl.total_quantity tr h
    · exact h

theorem matchSide_filled_ge :
    ∀ (levels : List (Int × Level)) (o : Order) (st : Store) (tr : List Trade),
      StoreOK st →
      o.filled ≤ (matchSide o st tr levels).ord.filled := by
  intro levels
  induction levels with
  | nil => intro o st tr _; exact le_refl _
  | cons pl rest ih =>
    intro o st tr h
    rcases pl with ⟨p, lvl⟩
    simp only [matchSide]
    split
    · split
      · exact le_refl _
      · split
        · exact le_trans
            (matchLevel_filled_ge lvl.price lvl.orders o st lvl.total_quantity tr h)
            (ih _ _ _ (matchLevel_storeOK lvl.price lvl.orders o st
              lvl.total_quantity tr h))
        · exact matchLevel_filled_ge lvl.price lvl.orders o st lvl.total_quantity tr h
    · exact le_refl _

theorem match_order_filled_bounds (o : Order) (st : Store) (b : Book)
    (hOK : StoreOK st) (h : o.filled ≤ o.quantity) :
    o.filled ≤ (OrderBook.match_order o st b).ord.filled ∧
    (OrderBook.match_order o st b).ord.filled ≤ o.quantity := by
  unfold OrderBook.match_order
  by_cases hs : o.side = Side.BUY
  · rw [if_pos hs]
    exact ⟨matchSide_filled_ge b.asks o st [] hOK,
      matchSide_filled_le b.asks o st [] h⟩
  · rw [if_neg hs]
    exact ⟨matchSide_filled_ge b.bids o st [] hOK,
      matchSide_filled_le b.bids o st [] h⟩

/-- Claim C6: `add_order` preserves the order-record invariant for every
order in the arena: `0 ≤ filled ≤ quantity`, and the status is consistent
with the fill (FILLED iff filled = quantity; PARTIAL implies a strict
partial fill; PENDING implies no fill; CANCELLED arises only on MARKET
orders that could not be fully filled — `cancel_order` is a no-op and
never sets it).  Applied inductively over a run, every order ever passed
to `add_order` satisfies the invariant at every point after the call. -/
theorem c6_order_status_consistent (st : Store) (b : Book) (oi : Nat)
    (h : StoreOK st) :
    StoreOK (OrderBook.add_order oi st b).store := by
  simp only [OrderBook.add_order]
  obtain ⟨f, hford⟩ := match_order_ord_shape (getOrder st oi) st b
  have hmOK := match_order_storeOK (getOrder st oi) st b h
  by_cases hlen : oi < st.length
  · have hin := h _ (getOrder_mem st oi hlen)
    rcases hin with ⟨h0, h1, _⟩
    obtain ⟨hg, hl⟩ := match_order_filled_bounds (getOrder st oi) st b h h1
    rw [hford] at hg hl
    have hf0 : 0 ≤ f := le_trans h0 hg
    have hf1 : f ≤ (getOrder st oi).quantity := hl
    by_cases hm : (getOrder st oi).type = OrderType.MARKET
    · rw [if_pos hm]
      unfold OrderBook.process_market_order
      apply storeOK_set _ _ _ hmOK
      split
      · rename_i hst
        have hflt : f < (getOrder st oi).quantity :=
          finalStatus_ne_filled { getOrder st oi with filled := f }
            (by rw [hford] at hst; exact hst)
        rw [hford]
        exact orderOK_cancelled _ f hf0 hflt hm
      · rw [hford]
        exact orderOK_final _ f hf0 hf1
    · rw [if_neg hm]
      apply storeOK_set _ _ _ hmOK
      rw [hford]
      exact orderOK_final _ f hf0 hf1
  · have hsk : st.length ≤ oi := Nat.le_of_not_lt hlen
    have hsk' : (OrderBook.match_order (getOrder st oi) st b).store.length ≤ oi := by
      rw [match_order_store_length]; exact hsk
    by_cases hm : (getOrder st oi).type = OrderType.MARKET
    · rw [if_pos hm]
      unfold OrderBook.process_market_order
      dsimp only
      rw [setOrder_oob _ _ _ hsk']
      exact hmOK
    · rw [if_neg hm]
      rw [setOrder_oob _ _ _ hsk']
      exact hmOK

theorem add_order_trades_eq (oi : Nat) (st : Store) (b : Book) :
    (OrderBook.add_order oi st b).trades =
    (OrderBook.match_order (getOrder st oi) st b).trades := by
  simp only [OrderBook.add_order]
  by_cases hm : (getOrder st oi).type = OrderType.MARKET
  · rw [if_pos hm]
    unfold OrderBook.process_market_order
    rfl
  · rw [if_neg hm]

/-- Claim C7: every trade emitted while adding an order prints at the
price of the maker level it matched against (never the incoming taker's
own price), carries the max of the two participants' timestamps as its
timestamp, and assigns `buy_order_id` / `sell_order_id` to the BUY-side
and SELL-side participants respectively, whichever side the incoming
order is on.  The level-key/level-price hypotheses are the relevant part
of the book invariant (claim C5). -/
theorem c7_trade_fields (st : Store) (b : Book) (oi : Nat)
    (hb : LevelsOK st b.bids) (ha : LevelsOK st b.asks) :
    ∀ t ∈ (OrderBook.add_order oi st b).trades,
      TradeWitness (getOrder st oi) st
        (if (getOrder st oi).side = Side.BUY then b.asks else b.bids) t := by
  intro t ht
  rw [add_order_trades_eq] at ht
  have ht2 := match_order_trades_mem (getOrder st oi) st b t ht
  by_cases hs : (getOrder st oi).side = Side.BUY
  · rw [if_pos hs] at ht2 ⊢
    rcases matchSide_trades b.asks (getOrder st oi) st [] t ht2 with
      h0 | ⟨pl, hpl, ci, hci, hp, hts, hbuy, hsell⟩
    · exact absurd h0 (List.not_mem_nil t)
    · exact ⟨pl, hpl, ci, hci, by rw [hp, (ha pl hpl).1], hts, hbuy, hsell⟩
  · rw [if_neg hs] at ht2 ⊢
    rcases matchSide_trades b.bids (getOrder st oi) st [] t ht2 with
      h0 | ⟨pl, hpl, ci, hci, hp, hts, hbuy, hsell⟩
    · exact absurd h0 (List.not_mem_nil t)
    · exact ⟨pl, hpl, ci, hci, by rw [hp, (hb pl hpl).1], hts, hbuy, hsell⟩

/-- Claim C8: a MARKET order never rests in the book, and when it cannot
be fully filled it terminates CANCELLED; in particular a MARKET order
submitted against an empty opposite side ends CANCELLED with zero fill,
emits no trades, and leaves the book (including `total_trades`)
unchanged. -/
theorem c8_market_order_no_liquidity (st : Store) (b : Book) (oi : Nat)
    (hm : (getOrder st oi).type = OrderType.MARKET)
    (hoi : oi < st.length)
    (hfresh : oi ∉ bookIdx b)
    (h0 : (getOrder st oi).filled = 0)
    (hq : 0 < (getOrder st oi).quantity) :
    (oi ∉ bookIdx (OrderBook.add_order oi st b).book) ∧
    ((getOrder (OrderBook.add_order oi st b).store oi).filled <
      (getOrder (OrderBook.add_order oi st b).store oi).quantity →
      (getOrder (OrderBook.add_order oi st b).store oi).status =
        OrderStatus.CANCELLED) ∧
    ((if (getOrder st oi).side = Side.BUY then b.asks else b.bids) = [] →
      (getOrder (OrderBook.add_order oi st b).store oi).status =
        OrderStatus.CANCELLED ∧
      (getOrder (OrderBook.add_order oi st b).store oi).filled = 0 ∧
      (OrderBook.add_order oi st b).trades = [] ∧
      (OrderBook.add_order oi st b).book = b) := by
  obtain ⟨f, hford⟩ := match_order_ord_shape (getOrder st oi) st b
  have haeq : OrderBook.add_order oi st b =
      OrderBook.process_market_order oi st b := by
    simp only [OrderBook.add_order]
    rw [if_pos hm]
  rw [haeq]
  have hoi' : oi < (OrderBook.match_order (getOrder st oi) st b).store.length := by
    rw [match_order_store_length]; exact hoi
  refine ⟨?_, ?_, ?_⟩
  · -- never rests
    intro hmem
    unfold OrderBook.process_market_order at hmem
    exact hfresh ((match_order_bookIdx_sublist (getOrder st oi) st b).subset hmem)
  · -- not fully filled → CANCELLED
    unfold OrderBook.process_market_order
    dsimp only
    rw [getOrder_set_self _ _ _ hoi']
    split
    · intro _; rfl
    · rename_i hst
      rw [not_not] at hst
      intro hlt
      exfalso
      have hfill := finalStatus_filled { getOrder st oi with filled := f }
        (by rw [hford] at hst; exact hst)
      rw [hford] at hlt
      dsimp only at hfill hlt
      omega
  · -- empty opposite side
    intro hempty
    have hmatch : OrderBook.match_order (getOrder st oi) st b =
        ⟨{ getOrder st oi with status := finalStatus (getOrder st oi) }, st, [], b⟩ := by
      unfold OrderBook.match_order
      by_cases hs : (getOrder st oi).side = Side.BUY
      · rw [if_pos hs] at hempty
        rw [if_pos hs, hempty]
        simp only [matchSide]
        rw [← hempty]
        rfl
      · rw [if_neg hs] at hempty
        rw [if_neg hs, hempty]
        simp only [matchSide]
        rw [← hempty]
        rfl
    have hfs : finalStatus (getOrder st oi) = OrderStatus.PENDING := by
      unfold finalStatus
      rw [if_neg (by omega), if_neg (by omega)]
    unfold OrderBook.process_market_order
    dsimp only
    rw [hmatch]
    dsimp only
    rw [hfs]
    rw [if_pos (by decide)]
    rw [getOrder_set_self _ _ _ hoi]
    exact ⟨rfl, h0, rfl, rfl⟩

theorem c5_book_invariant_preserved_witness :
    BookInv (OrderBook.add_order 0 c9Store Book.empty).store
      (OrderBook.add_order 0 c9Store Book.empty).book ∧
    BookInv (OrderBook.process_market_order 0 c9Store Book.empty).store
      (OrderBook.process_market_order 0 c9Store Book.empty).book ∧
    BookInv (OrderBook.cancel_order 5 c9Store Book.empty).store
      (OrderBook.cancel_order 5 c9Store Book.empty).book :=
  c5_book_invariant_preserved c9Store Book.empty 0 5 (by decide) (by decide)
    (by decide)

theorem c6_order_status_consistent_witness :
    StoreOK (OrderBook.add_order 0 c9Store Book.empty).store :=
  c6_order_status_consistent c9Store Book.empty 0 (by decide)

theorem c7_trade_fields_witness :
    TradeWitness (getOrder c9Rest.store 3) c9Rest.store
      (if (getOrder c9Rest.store 3).side = Side.BUY then c9Rest.book.asks
        else c9Rest.book.bids)
      ⟨4, 1, 1000000, 100, 4000⟩ :=
  c7_trade_fields c9Rest.store c9Rest.book 3 (by decide) (by decide)
    ⟨4, 1, 1000000, 100, 4000⟩ (by decide)

theorem c8_market_order_no_liquidity_witness :
    (0 ∉ bookIdx (OrderBook.add_order 0 c8Store Book.empty).book) ∧
    ((getOrder (OrderBook.add_order 0 c8Store Book.empty).store 0).filled <
      (getOrder (OrderBook.add_order 0 c8Store Book.empty).store 0).quantity →
      (getOrder (OrderBook.add_order 0 c8Store Book.empty).store 0).status =
        OrderStatus.CANCELLED) ∧
    ((if (getOrder c8Store 0).side = Side.BUY then Book.empty.asks
        else Book.empty.bids) = [] →
      (getOrder (OrderBook.add_order 0 c8Store Book.empty).store 0).status =
        OrderStatus.CANCELLED ∧
      (getOrder (OrderBook.add_order 0 c8Store Book.empty).store 0).filled = 0 ∧
      (OrderBook.add_order 0 c8Store Book.empty).trades = [] ∧
      (OrderBook.add_order 0 c8Store Book.empty).book = Book.empty) :=
  c8_market_order_no_liquidity c8Store Book.empty 0 (by decide) (by decide)
    (by decide) (by decide) (by decide)

/-! ### Engine-level lemmas and claims C10, C2, C4 -/

theorem writeSlot_get (st : Store) (i : Nat) (o : Order) (h : i ≤ st.length) :
    getOrder (writeSlot st i o) i = o := by
  unfold writeSlot
  by_cases hlt : i < st.length
  · rw [if_pos hlt]
    exact getOrder_set_self st i o hlt
  · rw [if_neg hlt]
    have he : i = st.length := Nat.le_antisymm h (Nat.le_of_not_lt hlt)
    subst he
    simp [getOrder, List.getD, List.getElem?_concat_length]

theorem match_order_idts (o : Order) (st : Store) (b : Book) (j : Nat) :
    (getOrder (OrderBook.match_order o st b).store j).id = (getOrder st j).id ∧
    (getOrder (OrderBook.match_order o st b).store j).timestamp =
      (getOrder st j).timestamp := by
  unfold OrderBook.match_order
  by_cases hs : o.side = Side.BUY
  · rw [if_pos hs]; exact matchSide_idts b.asks o st [] j
  · rw [if_neg hs]; exact matchSide_idts b.bids o st [] j

theorem add_order_idts (oi : Nat) (st : Store) (b : Book) (j : Nat) :
    (getOrder (OrderBook.add_order oi st b).store j).id = (getOrder st j).id ∧
    (getOrder (OrderBook.add_order oi st b).store j).timestamp =
      (getOrder st j).timestamp := by
  obtain ⟨f, hford⟩ := match_order_ord_shape (getOrder st oi) st b
  have hmid := match_order_idts (getOrder st oi) st b
  have hoid : ((OrderBook.match_order (getOrder st oi) st b).ord).id =
      (getOrder (OrderBook.match_order (getOrder st oi) st b).store oi).id := by
    rw [hford, (hmid oi).1]
  have hots : ((OrderBook.match_order (getOrder st oi) st b).ord).timestamp =
      (getOrder (OrderBook.match_order (getOrder st oi) st b).store oi).timestamp := by
    rw [hford, (hmid oi).2]
  simp only [OrderBook.add_order]
  by_cases hm : (getOrder st oi).type = OrderType.MARKET
  · rw [if_pos hm]
    unfold OrderBook.process_market_order
    dsimp only
    split
    · rcases getOrder_set_idts
        (OrderBook.match_order (getOrder st oi) st b).store oi
        { (OrderBook.match_order (getOrder st oi) st b).ord with
          status := OrderStatus.CANCELLED } hoid hots j with ⟨h1, h2⟩
      exact ⟨h1.trans (hmid j).1, h2.trans (hmid j).2⟩
    · rcases getOrder_set_idts
        (OrderBook.match_order (getOrder st oi) st b).store oi
        (OrderBook.match_order (getOrder st oi) st b).ord
        hoid hots j with ⟨h1, h2⟩
      exact ⟨h1.trans (hmid j).1, h2.trans (hmid j).2⟩
  · rw [if_neg hm]
    rcases getOrder_set_idts
      (OrderBook.match_order (getOrder st oi) st b).store oi
      (OrderBook.match_order (getOrder st oi) st b).ord
      hoid hots j with ⟨h1, h2⟩
    exact ⟨h1.trans (hmid j).1, h2.trans (hmid j).2⟩

/-- Claim C10: calling `submit_order` on an engine whose book map is empty
silently drops the order — the arena allocation still happens (the pool
advances and the stamped order is written into the arena) and the
monotonic id counter still advances, but no book receives the order,
`orders_submitted` is not incremented, and no trade can ever reference the
consumed id, leaving an observable id gap. -/
theorem c10_submit_order_dropped_without_book (tmpl : Order) (e : TickEngine)
    (h : e.books = []) :
    (TickEngine.submit_order tmpl e).books = [] ∧
    (TickEngine.submit_order tmpl e).orders_submitted = e.orders_submitted ∧
    (TickEngine.submit_order tmpl e).trades_executed = e.trades_executed ∧
    (TickEngine.submit_order tmpl e).trade_log = e.trade_log ∧
    (TickEngine.submit_order tmpl e).next_order_id = e.next_order_id + 1 ∧
    (TickEngine.submit_order tmpl e).pool =
      (MemoryPool.allocate BlockSizeDefault e.pool).1 ∧
    (TickEngine.submit_order tmpl e).store =
      writeSlot e.store
        ((MemoryPool.allocate BlockSizeDefault e.pool).2.1 * BlockSizeDefault +
          (MemoryPool.allocate BlockSizeDefault e.pool).2.2)
        { tmpl with id := e.next_order_id, timestamp := e.current_time } := by
  simp only [TickEngine.submit_order, h]
  repeat' apply And.intro
  all_goals first | rfl | trivial

theorem c10_submit_order_dropped_without_book_witness :
    (TickEngine.submit_order c2Template TickEngine.init).books = [] ∧
    (TickEngine.submit_order c2Template TickEngine.init).orders_submitted =
      TickEngine.init.orders_submitted ∧
    (TickEngine.submit_order c2Template TickEngine.init).trades_executed =
      TickEngine.init.trades_executed ∧
    (TickEngine.submit_order c2Template TickEngine.init).trade_log =
      TickEngine.init.trade_log ∧
    (TickEngine.submit_order c2Template TickEngine.init).next_order_id =
      TickEngine.init.next_order_id + 1 ∧
    (TickEngine.submit_order c2Template TickEngine.init).pool =
      (MemoryPool.allocate BlockSizeDefault TickEngine.init.pool).1 ∧
    (TickEngine.submit_order c2Template TickEngine.init).store =
      writeSlot TickEngine.init.store
        ((MemoryPool.allocate BlockSizeDefault TickEngine.init.pool).2.1 *
            BlockSizeDefault +
          (MemoryPool.allocate BlockSizeDefault TickEngine.init.pool).2.2)
        { c2Template with
          id := TickEngine.init.next_order_id
          timestamp := TickEngine.init.current_time } :=
  c10_submit_order_dropped_without_book c2Template TickEngine.init rfl

/-- Claim C2 (amended): when the engine's book map is non-empty,
`submit_order` stamps the allocated order with the counter's next value
(the counter starts at 1 on a fresh engine and increments on every call,
so assigned ids are strictly increasing) and with `current_time`,
dispatches it to the FIRST book in the map — `Order` carries no symbol, so
no symbol-based routing exists — leaving the other books untouched, and
increments `orders_submitted` by one; the assigned id and timestamp remain
observable on the stored order after matching.  When the map is empty the
order is dropped and `orders_submitted` is unchanged (claim C10). -/
theorem c2_submit_order_amended (tmpl : Order) (e : TickEngine)
    (sym : String) (b : Book) (rest : List (String × Book))
    (h : e.books = (sym, b) :: rest)
    (hflat : (MemoryPool.allocate BlockSizeDefault e.pool).2.1 * BlockSizeDefault +
      (MemoryPool.allocate BlockSizeDefault e.pool).2.2 ≤ e.store.length) :
    (TickEngine.submit_order tmpl e).next_order_id = e.next_order_id + 1 ∧
    (TickEngine.submit_order tmpl e).orders_submitted = e.orders_submitted + 1 ∧
    (TickEngine.submit_order tmpl e).books =
      (sym, (OrderBook.add_order
        ((MemoryPool.allocate BlockSizeDefault e.pool).2.1 * BlockSizeDefault +
          (MemoryPool.allocate BlockSizeDefault e.pool).2.2)
        (writeSlot e.store
          ((MemoryPool.allocate BlockSizeDefault e.pool).2.1 * BlockSizeDefault +
            (MemoryPool.allocate BlockSizeDefault e.pool).2.2)
          { tmpl with id := e.next_order_id, timestamp := e.current_time })
        b).book) :: rest ∧
    (TickEngine.submit_order tmpl e).trade_log = e.trade_log ++
      (OrderBook.add_order
        ((MemoryPool.allocate BlockSizeDefault e.pool).2.1 * BlockSizeDefault +
          (MemoryPool.allocate BlockSizeDefault e.pool).2.2)
        (writeSlot e.store
          ((MemoryPool.allocate BlockSizeDefault e.pool).2.1 * BlockSizeDefault +
            (MemoryPool.allocate BlockSizeDefault e.pool).2.2)
          { tmpl with id := e.next_order_id, timestamp := e.current_time })
        b).trades ∧
    (getOrder (TickEngine.submit_order tmpl e).store
      ((MemoryPool.allocate BlockSizeDefault e.pool).2.1 * BlockSizeDefault +
        (MemoryPool.allocate BlockSizeDefault e.pool).2.2)).id =
      e.next_order_id ∧
    (getOrder (TickEngine.submit_order tmpl e).store
      ((MemoryPool.allocate BlockSizeDefault e.pool).2.1 * BlockSizeDefault +
        (MemoryPool.allocate BlockSizeDefault e.pool).2.2)).timestamp =
      e.current_time := by
  have hw := writeSlot_get e.store
    ((MemoryPool.allocate BlockSizeDefault e.pool).2.1 * BlockSizeDefault +
      (MemoryPool.allocate BlockSizeDefault e.pool).2.2)
    { tmpl with id := e.next_order_id, timestamp := e.current_time } hflat
  have hida := add_order_idts
    ((MemoryPool.allocate BlockSizeDefault e.pool).2.1 * BlockSizeDefault +
      (MemoryPool.allocate BlockSizeDefault e.pool).2.2)
    (writeSlot e.store
      ((MemoryPool.allocate BlockSizeDefault e.pool).2.1 * BlockSizeDefault +
        (MemoryPool.allocate BlockSizeDefault e.pool).2.2)
      { tmpl with id := e.next_order_id, timestamp := e.current_time })
    b
    ((MemoryPool.allocate BlockSizeDefault e.pool).2.1 * BlockSizeDefault +
      (MemoryPool.allocate BlockSizeDefault e.pool).2.2)
  simp only [TickEngine.submit_order, h]
  repeat' apply And.intro
  all_goals first
    | trivial
    | rw [hida.1, hw]
    | rw [hida.2, hw]

theorem c2_submit_order_amended_witness :
    (TickEngine.submit_order c2Template c2Engine).next_order_id =
      c2Engine.next_order_id + 1 ∧
    (TickEngine.submit_order c2Template c2Engine).orders_submitted =
      c2Engine.orders_submitted + 1 ∧
    (TickEngine.submit_order c2Template c2Engine).books =
      ("A", (OrderBook.add_order
        ((MemoryPool.allocate BlockSizeDefault c2Engine.pool).2.1 * BlockSizeDefault +
          (MemoryPool.allocate BlockSizeDefault c2Engine.pool).2.2)
        (writeSlot c2Engine.store
          ((MemoryPool.allocate BlockSizeDefault c2Engine.pool).2.1 * BlockSizeDefault +
            (MemoryPool.allocate BlockSizeDefault c2Engine.pool).2.2)
          { c2Template with
            id := c2Engine.next_order_id
            timestamp := c2Engine.current_time })
        Book.empty).book) :: [] ∧
    (TickEngine.submit_order c2Template c2Engine).trade_log =
      c2Engine.trade_log ++
      (OrderBook.add_order
        ((MemoryPool.allocate BlockSizeDefault c2Engine.pool).2.1 * BlockSizeDefault +
          (MemoryPool.allocate BlockSizeDefault c2Engine.pool).2.2)
        (writeSlot c2Engine.store
          ((MemoryPool.allocate BlockSizeDefault c2Engine.pool).2.1 * BlockSizeDefault +
            (MemoryPool.allocate BlockSizeDefault c2Engine.pool).2.2)
          { c2Template with
            id := c2Engine.next_order_id
            timestamp := c2Engine.current_time })
        Book.empty).trades ∧
    (getOrder (TickEngine.submit_order c2Template c2Engine).store
      ((MemoryPool.allocate BlockSizeDefault c2Engine.pool).2.1 * BlockSizeDefault +
        (MemoryPool.allocate BlockSizeDefault c2Engine.pool).2.2)).id =
      c2Engine.next_order_id ∧
    (getOrder (TickEngine.submit_order c2Template c2Engine).store
      ((MemoryPool.allocate BlockSizeDefault c2Engine.pool).2.1 * BlockSizeDefault +
        (MemoryPool.allocate BlockSizeDefault c2Engine.pool).2.2)).timestamp =
      c2Engine.current_time :=
  c2_submit_order_amended c2Template c2Engine "A" Book.empty [] rfl (by decide)

theorem submit_order_EqL (tmpl : Order) (e1 e2 : TickEngine)
    (h : EqExceptLat e1 e2) :
    EqExceptLat (TickEngine.submit_order tmpl e1)
      (TickEngine.submit_order tmpl e2) := by
  rcases e1 with ⟨b1, s1, p1, n1, c1, t1, o1, x1, l1, g1⟩
  rcases e2 with ⟨b2, s2, p2, n2, c2, t2, o2, x2, l2, g2⟩
  obtain ⟨hb, hs, hp, hn, hc, ht, ho, hx, hg⟩ := h
  dsimp only at hb hs hp hn hc ht ho hx hg
  subst hb; subst hs; subst hp; subst hn; subst hc; subst ht; subst ho
  subst hx; subst hg
  cases b1 with
  | nil => exact ⟨rfl, rfl, rfl, rfl, rfl, rfl, rfl, rfl, rfl⟩
  | cons hd tl => exact ⟨rfl, rfl, rfl, rfl, rfl, rfl, rfl, rfl, rfl⟩

theorem submit_fold_EqL (orders : List Order) (e1 e2 : TickEngine)
    (h : EqExceptLat e1 e2) :
    EqExceptLat (orders.foldl (fun a tmpl => TickEngine.submit_order tmpl a) e1)
      (orders.foldl (fun a tmpl => TickEngine.submit_order tmpl a) e2) := by
  induction orders generalizing e1 e2 with
  | nil => exact h
  | cons o rest ih => exact ih _ _ (submit_order_EqL o e1 e2 h)

theorem strat_fold_EqL (strats : List Strategy) (hist : List Tick) (t : Tick)
    (e1 e2 : TickEngine) (h : EqExceptLat e1 e2) :
    EqExceptLat
      (strats.foldl (fun acc strat => (strat (hist ++ [t])).foldl
        (fun a tmpl => TickEngine.submit_order tmpl a) acc) e1)
      (strats.foldl (fun acc strat => (strat (hist ++ [t])).foldl
        (fun a tmpl => TickEngine.submit_order tmpl a) acc) e2) := by
  induction strats generalizing e1 e2 with
  | nil => exact h
  | cons s rest ih => exact ih _ _ (submit_fold_EqL (s (hist ++ [t])) e1 e2 h)

theorem process_tick_EqL (strats : List Strategy) (hist : List Tick) (t : Tick)
    (l1 l2 : Nat) (e1 e2 : TickEngine) (h : EqExceptLat e1 e2) :
    EqExceptLat (TickEngine.process_tick strats hist t l1 e1)
      (TickEngine.process_tick strats hist t l2 e2) := by
  obtain ⟨hb, hs, hp, hn, hc, ht, ho, hx, hg⟩ := h
  simp only [TickEngine.process_tick]
  have hcond2 : (List.lookup t.symbol e2.books).isSome =
      (List.lookup t.symbol e1.books).isSome := by rw [hb]
  by_cases hcond : (List.lookup t.symbol e1.books).isSome
  · rw [if_pos hcond, if_pos (hcond2 ▸ hcond)]
    obtain ⟨a1, a2, a3, a4, a5, a6, a7, a8, a9⟩ :=
      strat_fold_EqL strats hist t { e1 with current_time := t.timestamp }
        { e2 with current_time := t.timestamp }
        ⟨hb, hs, hp, hn, rfl, ht, ho, hx, hg⟩
    exact ⟨a1, a2, a3, a4, a5, by dsimp only; rw [a6], a7, a8, a9⟩
  · rw [if_neg hcond, if_neg (fun hk => hcond (hcond2 ▸ hk))]
    obtain ⟨a1, a2, a3, a4, a5, a6, a7, a8, a9⟩ :=
      strat_fold_EqL strats hist t
        { e1 with
          current_time := t.timestamp
          books := e1.books ++ [(t.symbol, Book.empty)] }
        { e2 with
          current_time := t.timestamp
          books := e2.books ++ [(t.symbol, Book.empty)] }
        ⟨by dsimp only; rw [hb], hs, hp, hn, rfl, ht, ho, hx, hg⟩
    exact ⟨a1, a2, a3, a4, a5, by dsimp only; rw [a6], a7, a8, a9⟩

theorem run_backtest_EqL (strats : List Strategy) :
    ∀ (ticks : List Tick) (c1 c2 : List Nat) (hist : List Tick)
      (e1 e2 : TickEngine), EqExceptLat e1 e2 →
      EqExceptLat (TickEngine.run_backtest strats ticks c1 hist e1)
        (TickEngine.run_backtest strats ticks c2 hist e2) := by
  intro ticks
  induction ticks with
  | nil => intro c1 c2 hist e1 e2 h; exact h
  | cons t ts ih =>
    intro c1 c2 hist e1 e2 h
    simp only [TickEngine.run_backtest]
    exact ih c1.tail c2.tail (hist ++ [t]) _ _
      (process_tick_EqL strats hist t (c1.headD 0) (c2.headD 0) e1 e2 h)

/-- Claim C4 (amended): running the same tick stream with the same
strategies on two fresh engines is deterministic in everything the clock
does not touch: `ticks_processed`, `orders_submitted`, `trades_executed`,
the emitted trade sequence, the books and the arena agree between the two
runs.  The `total_latency_ns` field of `Stats` is measured from the host's
monotonic clock and is excluded (see the counterexample theorem). -/
theorem c4_run_backtest_deterministic_modulo_latency (strats : List Strategy)
    (ticks : List Tick) (c1 c2 : List Nat) :
    (TickEngine.run strats ticks c1).ticks_processed =
      (TickEngine.run strats ticks c2).ticks_processed ∧
    (TickEngine.run strats ticks c1).orders_submitted =
      (TickEngine.run strats ticks c2).orders_submitted ∧
    (TickEngine.run strats ticks c1).trades_executed =
      (TickEngine.run strats ticks c2).trades_executed ∧
    (TickEngine.run strats ticks c1).trade_log =
      (TickEngine.run strats ticks c2).trade_log ∧
    (TickEngine.run strats ticks c1).books =
      (TickEngine.run strats ticks c2).books ∧
    (TickEngine.run strats ticks c1).store =
      (TickEngine.run strats ticks c2).store := by
  obtain ⟨a1, a2, a3, a4, a5, a6, a7, a8, a9⟩ :=
    run_backtest_EqL strats ticks c1 c2 [] TickEngine.init TickEngine.init
      ⟨rfl, rfl, rfl, rfl, rfl, rfl, rfl, rfl, rfl⟩
  exact ⟨a6, a7, a8, a9, a1, a2⟩
